import Mathlib

/-!
The sorted containers `sel::sorted_set` and `sel::sorted_map`.

A shallow embedding of the two header-only containers of the repository
(`src/sorted_set.hpp`, `src/sorted_map.hpp`).  Both keep their elements in one
`std::vector`; the vector is modelled as a `List`, an iterator as the index
(`Nat`) of the slot it addresses, and the end sentinel as the length of the list.
A mutating member function returns the new container together with its C++
return value.

The definitions ask of the key type only what the templates ask, an `operator<`.
The theorems are stated for keys whose `operator<` is a strict total order (as it
is for `int` and `std::string`, the key types of `src/main.cpp`), so that "equal"
and "neither less than the other" coincide.
-/

namespace sel

universe u v

/-! ## Standard-library primitives the containers are built on -/

/-- Loop of `std::lower_bound(first, last, val, comp)` in its usual library form:
`len` is the length of the remaining window that starts at `first`; each turn
probes the middle element and keeps the right or the left half.  The first
argument bounds the number of turns (the loop halves `len`, so `len` turns are
always enough).  The probe `v[middle]?` is never `none` on a window inside the
vector. -/
def std_lower_bound_loop {α : Type u} {β : Type v} (comp : α → β → Bool) (v : List α) (val : β) :
    Nat → Nat → Nat → Nat
  | 0, first, _ => first
  | fuel + 1, first, len =>
    if len = 0 then first
    else
      let half := len / 2
      let middle := first + half
      match v[middle]? with
      | none => first
      | some m =>
        if comp m val then std_lower_bound_loop comp v val fuel (middle + 1) (len - half - 1)
        else std_lower_bound_loop comp v val fuel first half

/-- The call `std::lower_bound(v.begin(), v.end(), val, comp)`; `comp elem val`. -/
def std_lower_bound {α : Type u} {β : Type v} (comp : α → β → Bool) (v : List α) (val : β) : Nat :=
  std_lower_bound_loop comp v val v.length 0 v.length

/-- Loop of `std::upper_bound(first, last, val, comp)`: as `std::lower_bound`, but
the probe is `comp val elem` and the left half is kept when it holds. -/
def std_upper_bound_loop {α : Type u} {β : Type v} (comp : β → α → Bool) (v : List α) (val : β) :
    Nat → Nat → Nat → Nat
  | 0, first, _ => first
  | fuel + 1, first, len =>
    if len = 0 then first
    else
      let half := len / 2
      let middle := first + half
      match v[middle]? with
      | none => first
      | some m =>
        if comp val m then std_upper_bound_loop comp v val fuel first half
        else std_upper_bound_loop comp v val fuel (middle + 1) (len - half - 1)

/-- The call `std::upper_bound(v.begin(), v.end(), val, comp)`; `comp val elem`. -/
def std_upper_bound {α : Type u} {β : Type v} (comp : β → α → Bool) (v : List α) (val : β) : Nat :=
  std_upper_bound_loop comp v val v.length 0 v.length

/-- The call `std::binary_search(v.begin(), v.end(), val)`:
`i = lower_bound(..); return i != last && !(val < *i)`. -/
def std_binary_search {α : Type u} (comp : α → α → Bool) (v : List α) (val : α) : Bool :=
  let i := std_lower_bound comp v val
  match v[i]? with
  | some x => !(comp val x)
  | none => false

/-- The call `std::vector::insert(pos, value)`: the tail from `pos` on moves one
slot to the right and `value` is written at `pos`. -/
def vector_insert {α : Type u} (v : List α) (pos : Nat) (value : α) : List α :=
  v.take pos ++ value :: v.drop pos

/-- The call `std::vector::erase(pos)`; `pos` must address an element. -/
def vector_erase {α : Type u} (v : List α) (pos : Nat) : List α :=
  v.eraseIdx pos

/-- The call `std::vector::erase(first, last)`; needs `first ≤ last ≤ size`. -/
def vector_erase_range {α : Type u} (v : List α) (first last : Nat) : List α :=
  v.take first ++ v.drop last

/-- The comparison `operator<` of `std::pair`: lexicographic, first component first. -/
def pair_lt {K : Type u} {T : Type v} [LT K] [DecidableRel (α := K) (· < ·)]
    [LT T] [DecidableRel (α := T) (· < ·)] (x y : K × T) : Bool :=
  decide (x.1 < y.1) || (!(decide (y.1 < x.1)) && decide (x.2 < y.2))

/-- The comparison `operator==` of `std::pair`: both components are equal. -/
def pair_eq {K : Type u} {T : Type v} [DecidableEq K] [DecidableEq T] (x y : K × T) : Bool :=
  decide (x.1 = y.1) && decide (x.2 = y.2)

/-- The call `std::equal(first1, last1, first2)`: the elements of the first range
are compared in turn with those of the second.  The arm with an exhausted second
range is not reached when the second range is at least as long as the first. -/
def std_equal {α : Type u} (eq : α → α → Bool) : List α → List α → Bool
  | [], _ => true
  | _ :: _, [] => false
  | x :: xs, y :: ys => if eq x y then std_equal eq xs ys else false

/-- The call `std::lexicographical_compare(first1, last1, first2, last2)`: at the
first position where one element is less than the other the answer is known; when
a range runs out, the answer is whether only the first one did. -/
def std_lexicographical_compare {α : Type u} (lt : α → α → Bool) : List α → List α → Bool
  | [], [] => false
  | [], _ :: _ => true
  | _ :: _, [] => false
  | x :: xs, y :: ys =>
    if lt x y then true
    else if lt y x then false
    else std_lexicographical_compare lt xs ys

/-- The comparison `operator==` of `std::vector`:
`x.size() == y.size() && std::equal(x.begin(), x.end(), y.begin())`. -/
def vector_eq {α : Type u} (eq : α → α → Bool) (x y : List α) : Bool :=
  decide (x.length = y.length) && std_equal eq x y

/-- The comparison `operator!=` of `std::vector`: `!(x == y)`. -/
def vector_ne {α : Type u} (eq : α → α → Bool) (x y : List α) : Bool :=
  !(vector_eq eq x y)

/-- The comparison `operator<` of `std::vector`: `std::lexicographical_compare`. -/
def vector_lt {α : Type u} (lt : α → α → Bool) (x y : List α) : Bool :=
  std_lexicographical_compare lt x y

/-- The comparison `operator>` of `std::vector`: `y < x`. -/
def vector_gt {α : Type u} (lt : α → α → Bool) (x y : List α) : Bool :=
  vector_lt lt y x

/-- The comparison `operator<=` of `std::vector`: `!(y < x)`. -/
def vector_le {α : Type u} (lt : α → α → Bool) (x y : List α) : Bool :=
  !(vector_lt lt y x)

/-- The comparison `operator>=` of `std::vector`: `!(x < y)`. -/
def vector_ge {α : Type u} (lt : α → α → Bool) (x y : List α) : Bool :=
  !(vector_lt lt x y)

/-! ## `sel::sorted_set` -/

/-- The class `sel::sorted_set<Key>`: its only data member is the vector. -/
structure sorted_set (Key : Type u) where
  m_container : List Key
deriving DecidableEq, Repr

namespace sorted_set

variable {Key : Type u} [LT Key] [DecidableRel (α := Key) (· < ·)]

/-- The iterator `cend()` (and `end()`): one past the last slot. -/
def cend (s : sorted_set Key) : Nat := s.m_container.length

/-- The member `size()`. -/
def size (s : sorted_set Key) : Nat := s.m_container.length

/-- The member `insert(const value_type&)` (`sorted_set.hpp` 181-193): returns the
container afterwards and the pair (position, inserted).  The arm `none` is the
case `first == m_container.end()`. -/
def insert (s : sorted_set Key) (value : Key) : sorted_set Key × (Nat × Bool) :=
  let first := std_lower_bound (fun a b => decide (a < b)) s.m_container value
  match s.m_container[first]? with
  | some x =>
    if ¬ (value < x) then (s, (first, false))
    else (⟨vector_insert s.m_container first value⟩, (first, true))
  | none => (⟨vector_insert s.m_container first value⟩, (first, true))

/-- The member `emplace(args...)` (`sorted_set.hpp` 255-269); the element built
from `args` is the argument `value`. -/
def emplace (s : sorted_set Key) (value : Key) : sorted_set Key × (Nat × Bool) :=
  let first := std_lower_bound (fun a b => decide (a < b)) s.m_container value
  match s.m_container[first]? with
  | some x =>
    if ¬ (value < x) then (s, (first, false))
    else (⟨vector_insert s.m_container first value⟩, (first, true))
  | none => (⟨vector_insert s.m_container first value⟩, (first, true))

/-- The member `insert(InputIt first, InputIt last)` (`sorted_set.hpp` 241-248), also
reached by `insert(std::initializer_list)`: one `insert` per source element, in
source order. -/
def insert_range (s : sorted_set Key) : List Key → sorted_set Key
  | [] => s
  | x :: rest => insert_range (s.insert x).1 rest

/-- The constructor `sorted_set(InputIt first, InputIt last)` (`sorted_set.hpp` 70-79),
also reached by the initializer-list constructor: the vector is cleared, then every
source element is inserted. -/
def of_range (init : List Key) : sorted_set Key :=
  insert_range ⟨[]⟩ init

/-- The member `erase(const_iterator pos)` (`sorted_set.hpp` 289-292): the container
afterwards and the returned iterator.  `pos` must address an element. -/
def erase (s : sorted_set Key) (pos : Nat) : sorted_set Key × Nat :=
  (⟨vector_erase s.m_container pos⟩, pos)

/-- The member `erase(const_iterator first, const_iterator last)` (`sorted_set.hpp`
294-297).  Needs `first ≤ last ≤ size`. -/
def erase_range (s : sorted_set Key) (first last : Nat) : sorted_set Key × Nat :=
  (⟨vector_erase_range s.m_container first last⟩, first)

/-- The member `find(const Key&)` (`sorted_set.hpp` 318-326). -/
def find (s : sorted_set Key) (key : Key) : Nat :=
  let first := std_lower_bound (fun a b => decide (a < b)) s.m_container key
  match s.m_container[first]? with
  | some x => if ¬ (key < x) then first else s.cend
  | none => s.cend

/-- The member `erase(const Key&)` (`sorted_set.hpp` 299-306): the container
afterwards and the number of elements removed. -/
def erase_key (s : sorted_set Key) (key : Key) : sorted_set Key × Nat :=
  let find_result := s.find key
  if find_result = s.cend then (s, 0)
  else (⟨vector_erase s.m_container find_result⟩, 1)

/-- The member `count(const Key&)` (`sorted_set.hpp` 313-316). -/
def count (s : sorted_set Key) (key : Key) : Nat :=
  if std_binary_search (fun a b => decide (a < b)) s.m_container key then 1 else 0

/-- The member `lower_bound(const Key&)` (`sorted_set.hpp` 338-346). -/
def lower_bound (s : sorted_set Key) (key : Key) : Nat :=
  std_lower_bound (fun a b => decide (a < b)) s.m_container key

/-- The member `upper_bound(const Key&)` (`sorted_set.hpp` 358-366). -/
def upper_bound (s : sorted_set Key) (key : Key) : Nat :=
  std_upper_bound (fun a b => decide (a < b)) s.m_container key

/-- The member `equal_range(const Key&)` (`sorted_set.hpp` 348-356). -/
def equal_range (s : sorted_set Key) (key : Key) : Nat × Nat :=
  (s.lower_bound key, s.upper_bound key)

/-- The sort invariant of the container: the stored sequence is strictly ascending. -/
def strictly_ascending (s : sorted_set Key) : Prop :=
  s.m_container.Pairwise (· < ·)

instance (s : sorted_set Key) : Decidable s.strictly_ascending :=
  inferInstanceAs (Decidable (s.m_container.Pairwise (· < ·)))

/-- The backward scan of `insert(const_iterator pos, const value_type&)`
(`sorted_set.hpp` 209-223).  The argument counts the slots still to visit: at
`it + 1` the iterator `it` addresses index `it`, at `0` the iterator has reached
`cbegin() - 1` and the call falls through to `insert(value).first`.  The arm `none`
is a dereference past the end, which no hint with `pos ≤ size` reaches. -/
def insert_hint_scan [DecidableEq Key] (s : sorted_set Key) (value : Key) :
    Nat → sorted_set Key × Nat
  | 0 => ((s.insert value).1, (s.insert value).2.1)
  | it + 1 =>
    match s.m_container[it]? with
    | some x =>
      if x = value then (s, it)
      else if x < value then (⟨vector_insert s.m_container (it + 1) value⟩, it + 1)
      else insert_hint_scan s value it
    | none => (s, it)

/-- The member `insert(const_iterator pos, const value_type&)` (`sorted_set.hpp`
209-223): the container afterwards and the returned iterator.  The scan starts at
`pos - 1`. -/
def insert_hint [DecidableEq Key] (s : sorted_set Key) (pos : Nat) (value : Key) :
    sorted_set Key × Nat :=
  insert_hint_scan s value pos

/-- The backward scan of `emplace_hint(const_iterator hint, args...)`
(`sorted_set.hpp` 271-287), counted as in `insert_hint_scan`; it falls through to
`emplace(value).first`. -/
def emplace_hint_scan [DecidableEq Key] (s : sorted_set Key) (value : Key) :
    Nat → sorted_set Key × Nat
  | 0 => ((s.emplace value).1, (s.emplace value).2.1)
  | it + 1 =>
    match s.m_container[it]? with
    | some x =>
      if x = value then (s, it)
      else if x < value then (⟨vector_insert s.m_container (it + 1) value⟩, it + 1)
      else emplace_hint_scan s value it
    | none => (s, it)

/-- The member `emplace_hint(const_iterator hint, args...)` (`sorted_set.hpp`
271-287); the element built from `args` is the argument `value`. -/
def emplace_hint [DecidableEq Key] (s : sorted_set Key) (hint : Nat) (value : Key) :
    sorted_set Key × Nat :=
  emplace_hint_scan s value hint

/-- The backward scan of `insert(const_iterator pos, const value_type&)`
(`sorted_set.hpp` 209-223) with a record of its reads: the second component lists
the indices at which the loop evaluates `*it`, in the order of the reads.  A turn of
the loop reads `*it` once (the second test `*it < value` is on the same element). -/
def insert_hint_scan_traced [DecidableEq Key] (s : sorted_set Key) (value : Key) :
    Nat → (sorted_set Key × Nat) × List Nat
  | 0 => (((s.insert value).1, (s.insert value).2.1), [])
  | it + 1 =>
    match s.m_container[it]? with
    | some x =>
      if x = value then ((s, it), [it])
      else if x < value then ((⟨vector_insert s.m_container (it + 1) value⟩, it + 1), [it])
      else ((insert_hint_scan_traced s value it).1, it :: (insert_hint_scan_traced s value it).2)
    | none => ((s, it), [it])

/-- The backward scan of `emplace_hint(const_iterator hint, args...)`
(`sorted_set.hpp` 271-287) with a record of its reads, as `insert_hint_scan_traced`. -/
def emplace_hint_scan_traced [DecidableEq Key] (s : sorted_set Key) (value : Key) :
    Nat → (sorted_set Key × Nat) × List Nat
  | 0 => (((s.emplace value).1, (s.emplace value).2.1), [])
  | it + 1 =>
    match s.m_container[it]? with
    | some x =>
      if x = value then ((s, it), [it])
      else if x < value then ((⟨vector_insert s.m_container (it + 1) value⟩, it + 1), [it])
      else ((emplace_hint_scan_traced s value it).1, it :: (emplace_hint_scan_traced s value it).2)
    | none => ((s, it), [it])

/-- The backward scan of `insert(const_iterator pos, value_type&&)`
(`sorted_set.hpp` 225-239), counted as in `insert_hint_scan`.  On an element equal
to the value the source evaluates the position of that element and discards it
(the statement has no `return`), so the scan goes on to the next slot. -/
def insert_hint_rvalue_scan [DecidableEq Key] (s : sorted_set Key) (value : Key) :
    Nat → sorted_set Key × Nat
  | 0 => ((s.insert value).1, (s.insert value).2.1)
  | it + 1 =>
    match s.m_container[it]? with
    | some x =>
      if x = value then insert_hint_rvalue_scan s value it
      else if x < value then (⟨vector_insert s.m_container (it + 1) value⟩, it + 1)
      else insert_hint_rvalue_scan s value it
    | none => (s, it)

/-- The member `insert(const_iterator pos, value_type&&)` (`sorted_set.hpp`
225-239): the container afterwards and the returned iterator. -/
def insert_hint_rvalue [DecidableEq Key] (s : sorted_set Key) (pos : Nat) (value : Key) :
    sorted_set Key × Nat :=
  insert_hint_rvalue_scan s value pos

/-- The comparison `operator==` of two sets (`sorted_set.hpp` 369-373). -/
def op_eq [DecidableEq Key] (lhs rhs : sorted_set Key) : Bool :=
  vector_eq (fun a b => decide (a = b)) lhs.m_container rhs.m_container

/-- The comparison `operator!=` of two sets (`sorted_set.hpp` 375-379). -/
def op_ne [DecidableEq Key] (lhs rhs : sorted_set Key) : Bool :=
  vector_ne (fun a b => decide (a = b)) lhs.m_container rhs.m_container

/-- The comparison `operator<` of two sets (`sorted_set.hpp` 381-385). -/
def op_lt (lhs rhs : sorted_set Key) : Bool :=
  vector_lt (fun a b => decide (a < b)) lhs.m_container rhs.m_container

/-- The comparison `operator<=` of two sets (`sorted_set.hpp` 387-391). -/
def op_le (lhs rhs : sorted_set Key) : Bool :=
  vector_le (fun a b => decide (a < b)) lhs.m_container rhs.m_container

/-- The comparison `operator>` of two sets (`sorted_set.hpp` 393-397). -/
def op_gt (lhs rhs : sorted_set Key) : Bool :=
  vector_gt (fun a b => decide (a < b)) lhs.m_container rhs.m_container

/-- The comparison `operator>=` of two sets (`sorted_set.hpp` 399-403). -/
def op_ge (lhs rhs : sorted_set Key) : Bool :=
  vector_ge (fun a b => decide (a < b)) lhs.m_container rhs.m_container

end sorted_set

/-- One call of a mutating member of `sorted_set` that takes no hint. -/
inductive SetOp (Key : Type u) where
  | insert (value : Key)
  | insert_range (source : List Key)
  | emplace (value : Key)
  | erase_key (key : Key)
  | erase (pos : Nat)
  | erase_range (first last : Nat)

/-- Effect of one call on the container.  `none` stands for a call outside the
contract of `std::vector::erase` (a position that addresses no element, or a
range that is not `first ≤ last ≤ size`), whose behaviour is undefined. -/
def SetOp.apply {Key : Type u} [LT Key] [DecidableRel (α := Key) (· < ·)]
    (s : sorted_set Key) : SetOp Key → Option (sorted_set Key)
  | .insert value => some (s.insert value).1
  | .insert_range source => some (s.insert_range source)
  | .emplace value => some (s.emplace value).1
  | .erase_key key => some (s.erase_key key).1
  | .erase pos => if pos < s.size then some (s.erase pos).1 else none
  | .erase_range first last =>
    if first ≤ last ∧ last ≤ s.size then some (s.erase_range first last).1 else none

/-- Effect of a sequence of calls, left to right. -/
def run_set_ops {Key : Type u} [LT Key] [DecidableRel (α := Key) (· < ·)]
    (s : sorted_set Key) : List (SetOp Key) → Option (sorted_set Key)
  | [] => some s
  | op :: rest => (SetOp.apply s op).bind (fun t => run_set_ops t rest)

/-- Reference for the comparison with `std::set` made by `assert_set_equal` in
`src/main.cpp`: a `std::set` filled from `source` iterates the distinct elements of
`source` in ascending order. -/
def std_set_sequence {Key : Type u} [LinearOrder Key] (source : List Key) : List Key :=
  (source.dedup).insertionSort (· ≤ ·)

/-! ## `sel::sorted_map` -/

/-- The exception `std::out_of_range` that `sorted_map::at` throws. -/
inductive map_error where
  | out_of_range
deriving DecidableEq, Repr

instance except_decidable_eq {ε : Type u} {α : Type v} [DecidableEq ε] [DecidableEq α] :
    DecidableEq (Except ε α)
  | Except.ok a, Except.ok b =>
    if h : a = b then isTrue (by rw [h]) else isFalse (fun e => h (Except.ok.inj e))
  | Except.error a, Except.error b =>
    if h : a = b then isTrue (by rw [h]) else isFalse (fun e => h (Except.error.inj e))
  | Except.ok _, Except.error _ => isFalse (fun e => Except.noConfusion e)
  | Except.error _, Except.ok _ => isFalse (fun e => Except.noConfusion e)

/-- The class `sel::sorted_map<Key, T>`: its only data member is the vector of pairs. -/
structure sorted_map (Key : Type u) (T : Type v) where
  m_container : List (Key × T)
deriving DecidableEq, Repr

namespace sorted_map

variable {Key : Type u} {T : Type v} [LT Key] [DecidableRel (α := Key) (· < ·)]
  [LT T] [DecidableRel (α := T) (· < ·)]

/-- The iterator `cend()` (and `end()`). -/
def cend (m : sorted_map Key T) : Nat := m.m_container.length

/-- The member `insert(const value_type&)` (`sorted_map.hpp` 227-239).  Both
`std::lower_bound` and the test `value < *first` compare whole pairs with the
`operator<` of `std::pair`. -/
def insert (m : sorted_map Key T) (value : Key × T) : sorted_map Key T × (Nat × Bool) :=
  let first := std_lower_bound pair_lt m.m_container value
  match m.m_container[first]? with
  | some x =>
    if ¬ (pair_lt value x = true) then (m, (first, false))
    else (⟨vector_insert m.m_container first value⟩, (first, true))
  | none => (⟨vector_insert m.m_container first value⟩, (first, true))

/-- The member `find(const Key&)` (`sorted_map.hpp` 364-374): the binary search
compares the key of an entry with `key`. -/
def find (m : sorted_map Key T) (key : Key) : Nat :=
  let find_result := std_lower_bound (fun (vt : Key × T) (k : Key) => decide (vt.1 < k))
    m.m_container key
  match m.m_container[find_result]? with
  | some x => if ¬ (key < x.1) then find_result else m.cend
  | none => m.cend

/-- The member `erase(const Key&)` (`sorted_map.hpp` 345-352): the container
afterwards and the number of entries removed. -/
def erase_key (m : sorted_map Key T) (key : Key) : sorted_map Key T × Nat :=
  let find_result := m.find key
  if find_result = m.cend then (m, 0)
  else (⟨vector_erase m.m_container find_result⟩, 1)

/-- The member `insert(InputIt first, InputIt last)` (`sorted_map.hpp` 287-294), also
reached by `insert(std::initializer_list)`: one `insert` per source entry, in source
order. -/
def insert_range (m : sorted_map Key T) : List (Key × T) → sorted_map Key T
  | [] => m
  | x :: rest => insert_range (m.insert x).1 rest

/-- The constructors `sorted_map(InputIt first, InputIt last)` and
`sorted_map(std::initializer_list)` (`sorted_map.hpp` 74-93): the vector is cleared,
then every source entry is inserted. -/
def of_range (init : List (Key × T)) : sorted_map Key T :=
  insert_range ⟨[]⟩ init

/-- The member `emplace(args...)` (`sorted_map.hpp` 301-315); the entry built from
`args` is the argument `value`.  As in `insert`, whole pairs are compared. -/
def emplace (m : sorted_map Key T) (value : Key × T) : sorted_map Key T × (Nat × Bool) :=
  let first := std_lower_bound pair_lt m.m_container value
  match m.m_container[first]? with
  | some x =>
    if ¬ (pair_lt value x = true) then (m, (first, false))
    else (⟨vector_insert m.m_container first value⟩, (first, true))
  | none => (⟨vector_insert m.m_container first value⟩, (first, true))

/-- The member `erase(const_iterator pos)` (`sorted_map.hpp` 335-338).  `pos` must
address an entry. -/
def erase (m : sorted_map Key T) (pos : Nat) : sorted_map Key T × Nat :=
  (⟨vector_erase m.m_container pos⟩, pos)

/-- The member `erase(const_iterator first, const_iterator last)` (`sorted_map.hpp`
340-343).  Needs `first ≤ last ≤ size`. -/
def erase_range (m : sorted_map Key T) (first last : Nat) : sorted_map Key T × Nat :=
  (⟨vector_erase_range m.m_container first last⟩, first)

/-- The member `size()`. -/
def size (m : sorted_map Key T) : Nat := m.m_container.length

/-- The member `at(const Key&)` (`sorted_map.hpp` 130-146): the mapped value the
returned reference addresses, or the exception.  The body calls `find` and writes
nothing, so no container is returned.  The arm `none` is not reached, `find`
returns the end sentinel or the position of an entry. -/
def at_key (m : sorted_map Key T) (key : Key) : Except map_error T :=
  let find_result := m.find key
  if find_result = m.cend then Except.error map_error.out_of_range
  else
    match m.m_container[find_result]? with
    | some x => Except.ok x.2
    | none => Except.error map_error.out_of_range

/-- The member `operator[](const Key&)` (`sorted_map.hpp` 148-155): the container
afterwards and the position of the entry whose mapped value the returned
reference addresses.  `T()` is `default`. -/
def subscript [Inhabited T] (m : sorted_map Key T) (key : Key) : sorted_map Key T × Nat :=
  let find_result := m.find key
  if find_result = m.cend then ((m.insert (key, default)).1, (m.insert (key, default)).2.1)
  else (m, find_result)

/-- The mapped value that the reference returned by `operator[]` addresses. -/
def subscript_read [Inhabited T] (m : sorted_map Key T) (key : Key) : Option T :=
  ((m.subscript key).1.m_container[(m.subscript key).2]?).map Prod.snd

/-- The statement `m[key] = value` of `src/main.cpp` (136-137, 159-160): `operator[]`
runs, then `value` is written through the returned reference, that is, into the
mapped value of the entry at the returned position. -/
def subscript_assign [Inhabited T] (m : sorted_map Key T) (key : Key) (value : T) :
    sorted_map Key T :=
  match (m.subscript key).1.m_container[(m.subscript key).2]? with
  | some x => ⟨(m.subscript key).1.m_container.set (m.subscript key).2 (x.1, value)⟩
  | none => (m.subscript key).1

/-- The member `lower_bound(const Key&)` (`sorted_map.hpp` 388-400). -/
def lower_bound (m : sorted_map Key T) (key : Key) : Nat :=
  std_lower_bound (fun (vt : Key × T) (k : Key) => decide (vt.1 < k)) m.m_container key

/-- The member `upper_bound(const Key&)` (`sorted_map.hpp` 412-424). -/
def upper_bound (m : sorted_map Key T) (key : Key) : Nat :=
  std_upper_bound (fun (k : Key) (vt : Key × T) => decide (k < vt.1)) m.m_container key

/-- The member `equal_range(const Key&)` (`sorted_map.hpp` 402-410). -/
def equal_range (m : sorted_map Key T) (key : Key) : Nat × Nat :=
  (m.lower_bound key, m.upper_bound key)

/-- The comparison `operator==` of two maps (`sorted_map.hpp` 427-431); the entries
are compared with the `operator==` of `std::pair`. -/
def op_eq [DecidableEq Key] [DecidableEq T] (lhs rhs : sorted_map Key T) : Bool :=
  vector_eq pair_eq lhs.m_container rhs.m_container

/-- The comparison `operator!=` of two maps (`sorted_map.hpp` 433-437). -/
def op_ne [DecidableEq Key] [DecidableEq T] (lhs rhs : sorted_map Key T) : Bool :=
  vector_ne pair_eq lhs.m_container rhs.m_container

/-- The key invariant that `std::map` has: the keys of the stored entries are
strictly ascending. -/
def keys_strictly_ascending (m : sorted_map Key T) : Prop :=
  (m.m_container.map Prod.fst).Pairwise (· < ·)

instance (m : sorted_map Key T) : Decidable m.keys_strictly_ascending :=
  inferInstanceAs (Decidable ((m.m_container.map Prod.fst).Pairwise (· < ·)))

/-- The keys of the stored entries, in storage order. -/
def keys (m : sorted_map Key T) : List Key := m.m_container.map Prod.fst

/-- The order that `insert` and `emplace` keep: the stored entries are strictly
ascending for the `operator<` of `std::pair`. -/
def entries_strictly_ascending (m : sorted_map Key T) : Prop :=
  m.m_container.Pairwise (fun a b => pair_lt a b = true)

instance (m : sorted_map Key T) : Decidable m.entries_strictly_ascending :=
  inferInstanceAs (Decidable (m.m_container.Pairwise (fun a b => pair_lt a b = true)))

end sorted_map

/-- One call of a mutating member of `sorted_map` that takes no hint. -/
inductive MapOp (Key : Type u) (T : Type v) where
  | insert (value : Key × T)
  | insert_range (source : List (Key × T))
  | emplace (value : Key × T)
  | erase_key (key : Key)
  | erase (pos : Nat)
  | erase_range (first last : Nat)

/-- Effect of one call on the map.  `none` stands for a call outside the contract
of `std::vector::erase`, as in `SetOp.apply`. -/
def MapOp.apply {Key : Type u} {T : Type v} [LT Key] [DecidableRel (α := Key) (· < ·)]
    [LT T] [DecidableRel (α := T) (· < ·)]
    (m : sorted_map Key T) : MapOp Key T → Option (sorted_map Key T)
  | .insert value => some (m.insert value).1
  | .insert_range source => some (m.insert_range source)
  | .emplace value => some (m.emplace value).1
  | .erase_key key => some (m.erase_key key).1
  | .erase pos => if pos < m.size then some (m.erase pos).1 else none
  | .erase_range first last =>
    if first ≤ last ∧ last ≤ m.size then some (m.erase_range first last).1 else none

/-- Effect of a sequence of calls on the map, left to right. -/
def run_map_ops {Key : Type u} {T : Type v} [LT Key] [DecidableRel (α := Key) (· < ·)]
    [LT T] [DecidableRel (α := T) (· < ·)]
    (m : sorted_map Key T) : List (MapOp Key T) → Option (sorted_map Key T)
  | [] => some m
  | op :: rest => (MapOp.apply m op).bind (fun t => run_map_ops t rest)

/-! ## The binary searches on a partitioned sequence -/

section search

variable {α : Type u} {β : Type v}

/-- On a window that contains the partition point `n` of the test `comp · val`, the loop
of `std::lower_bound` ends at `n`, provided its turn budget covers the window. -/
theorem std_lower_bound_loop_eq (comp : α → β → Bool) (v : List α) (val : β) (n : Nat)
    (hp : ∀ i (h : i < v.length), comp v[i] val = true ↔ i < n) :
    ∀ fuel first len, len ≤ fuel → first ≤ n → n ≤ first + len → first + len ≤ v.length →
      std_lower_bound_loop comp v val fuel first len = n := by
  intro fuel
  induction fuel with
  | zero =>
    intro first len h1 h2 h3 _
    simp only [std_lower_bound_loop]
    omega
  | succ fuel ih =>
    intro first len h1 h2 h3 h4
    simp only [std_lower_bound_loop]
    by_cases hlen : len = 0
    · simp only [hlen, if_true]
      omega
    · have hmid : first + len / 2 < v.length := by omega
      simp only [hlen, if_false, List.getElem?_eq_getElem hmid]
      by_cases hc : comp v[first + len / 2] val = true
      · have hlt : first + len / 2 < n := (hp _ hmid).mp hc
        simp only [hc, if_true]
        exact ih _ _ (by omega) (by omega) (by omega) (by omega)
      · have hge : ¬ first + len / 2 < n := fun h => hc ((hp _ hmid).mpr h)
        simp only [hc]
        exact ih _ _ (by omega) (by omega) (by omega) (by omega)

/-- The loop of `std::upper_bound` is the loop of `std::lower_bound` run with the
negated, swapped test. -/
theorem std_upper_bound_loop_eq_lower (comp : β → α → Bool) (v : List α) (val : β) :
    ∀ fuel first len, std_upper_bound_loop comp v val fuel first len
      = std_lower_bound_loop (fun m x => !(comp x m)) v val fuel first len := by
  intro fuel
  induction fuel with
  | zero => intro first len; rfl
  | succ fuel ih =>
    intro first len
    simp only [std_upper_bound_loop, std_lower_bound_loop]
    by_cases hlen : len = 0
    · simp [hlen]
    · simp only [hlen, if_false]
      cases hm : v[first + len / 2]? with
      | none => rfl
      | some m =>
        simp only []
        by_cases hc : comp val m = true
        · simp [hc, ih]
        · simp [hc, ih]

/-- A sequence along which a test can only switch from true to false has a
partition point. -/
theorem exists_partition_point (p : α → Bool) (v : List α)
    (h : v.Pairwise (fun a b => p b = true → p a = true)) :
    ∃ n, n ≤ v.length ∧ ∀ i (hi : i < v.length), p v[i] = true ↔ i < n := by
  induction v with
  | nil => exact ⟨0, by simp⟩
  | cons a t ih =>
    rw [List.pairwise_cons] at h
    obtain ⟨n, hn, hnp⟩ := ih h.2
    by_cases ha : p a = true
    · refine ⟨n + 1, by simp [hn], ?_⟩
      intro i hi
      cases i with
      | zero => simp [ha]
      | succ j =>
        have hj : j < t.length := by simpa using hi
        simp [hnp j hj]
    · refine ⟨0, by simp, ?_⟩
      intro i hi
      cases i with
      | zero => simp [ha]
      | succ j =>
        have hj : j < t.length := by simpa using hi
        have : ¬ p t[j] = true := fun hb => ha (h.1 _ (List.getElem_mem hj) hb)
        simpa using this

/-- Contract of `std::lower_bound` on a partitioned sequence: the result is the
partition point of the test `comp · val`. -/
theorem std_lower_bound_spec (comp : α → β → Bool) (v : List α) (val : β)
    (h : v.Pairwise (fun a b => comp b val = true → comp a val = true)) :
    std_lower_bound comp v val ≤ v.length ∧
      ∀ i (hi : i < v.length), comp v[i] val = true ↔ i < std_lower_bound comp v val := by
  obtain ⟨n, hn, hnp⟩ := exists_partition_point (fun a => comp a val) v h
  have e : std_lower_bound comp v val = n :=
    std_lower_bound_loop_eq comp v val n hnp v.length 0 v.length (le_refl _) (Nat.zero_le _)
      (by omega) (by omega)
  rw [e]
  exact ⟨hn, hnp⟩

/-- Contract of `std::upper_bound` on a partitioned sequence: the result is the
partition point of the test `¬ comp val ·`. -/
theorem std_upper_bound_spec (comp : β → α → Bool) (v : List α) (val : β)
    (h : v.Pairwise (fun a b => comp val b = false → comp val a = false)) :
    std_upper_bound comp v val ≤ v.length ∧
      ∀ i (hi : i < v.length), comp val v[i] = false ↔ i < std_upper_bound comp v val := by
  have e : std_upper_bound comp v val = std_lower_bound (fun m x => !(comp x m)) v val :=
    std_upper_bound_loop_eq_lower comp v val v.length 0 v.length
  have h2 := std_lower_bound_spec (fun m x => !(comp x m)) v val
    (h.imp (fun {a b} hab => by simpa using hab))
  rw [e]
  refine ⟨h2.1, fun i hi => ?_⟩
  rw [← h2.2 i hi]
  simp

end search

/-! ## Facts about a strictly ascending `sorted_set` -/

namespace sorted_set

variable {Key : Type u} [LinearOrder Key]

theorem getElem_lt_getElem {s : sorted_set Key} (hs : s.strictly_ascending) {i j : Nat}
    (hi : i < s.m_container.length) (hj : j < s.m_container.length) (hij : i < j) :
    s.m_container[i] < s.m_container[j] :=
  (List.pairwise_iff_getElem.mp hs) i j hi hj hij

theorem getElem_inj {s : sorted_set Key} (hs : s.strictly_ascending) {i j : Nat}
    (hi : i < s.m_container.length) (hj : j < s.m_container.length)
    (h : s.m_container[i] = s.m_container[j]) : i = j := by
  rcases Nat.lt_trichotomy i j with hlt | heq | hgt
  · exact absurd h (ne_of_lt (getElem_lt_getElem hs hi hj hlt))
  · exact heq
  · exact absurd h.symm (ne_of_lt (getElem_lt_getElem hs hj hi hgt))

/-- On a strictly ascending set `lower_bound(k)` is the partition point of `· < k`. -/
theorem lower_bound_spec {s : sorted_set Key} (hs : s.strictly_ascending) (k : Key) :
    s.lower_bound k ≤ s.m_container.length ∧
      ∀ i (hi : i < s.m_container.length), s.m_container[i] < k ↔ i < s.lower_bound k := by
  have h := std_lower_bound_spec (fun (a b : Key) => decide (a < b)) s.m_container k
    (List.Pairwise.imp (fun {a b} hab => by
      simp only [decide_eq_true_eq]
      exact fun hb => lt_trans hab hb) hs)
  refine ⟨h.1, fun i hi => ?_⟩
  have := h.2 i hi
  simpa only [decide_eq_true_eq] using this

/-- On a strictly ascending set `upper_bound(k)` is the partition point of `· ≤ k`. -/
theorem upper_bound_spec {s : sorted_set Key} (hs : s.strictly_ascending) (k : Key) :
    s.upper_bound k ≤ s.m_container.length ∧
      ∀ i (hi : i < s.m_container.length), s.m_container[i] ≤ k ↔ i < s.upper_bound k := by
  have h := std_upper_bound_spec (fun (a b : Key) => decide (a < b)) s.m_container k
    (List.Pairwise.imp (fun {a b} hab => by
      simp only [decide_eq_false_iff_not, not_lt]
      exact fun hb => le_trans (le_of_lt hab) hb) hs)
  refine ⟨h.1, fun i hi => ?_⟩
  have := h.2 i hi
  simpa only [decide_eq_false_iff_not, not_lt] using this

/-- What stands at `lower_bound(k)`: `k` itself when `k` is stored, otherwise a
greater element or nothing. -/
theorem lower_bound_get {s : sorted_set Key} (hs : s.strictly_ascending) (k : Key) :
    (k ∈ s.m_container ∧ s.m_container[s.lower_bound k]? = some k) ∨
    (k ∉ s.m_container ∧ ∀ x, s.m_container[s.lower_bound k]? = some x → k < x) := by
  obtain ⟨hle, hp⟩ := lower_bound_spec hs k
  by_cases hk : k ∈ s.m_container
  · left
    refine ⟨hk, ?_⟩
    obtain ⟨i, hi, rfl⟩ := List.mem_iff_getElem.mp hk
    have h1 : ¬ i < s.lower_bound s.m_container[i] := fun h => lt_irrefl _ ((hp i hi).mpr h)
    have hlb : s.lower_bound s.m_container[i] < s.m_container.length := by omega
    have h2 : ¬ s.m_container[s.lower_bound s.m_container[i]] < s.m_container[i] :=
      fun h => lt_irrefl _ ((hp _ hlb).mp h)
    rcases Nat.lt_or_ge (s.lower_bound s.m_container[i]) i with hlt | hge
    · exact absurd (getElem_lt_getElem hs hlb hi hlt) h2
    · have : s.lower_bound s.m_container[i] = i := by omega
      rw [List.getElem?_eq_getElem hlb]
      simp only [this]
  · right
    refine ⟨hk, fun x hx => ?_⟩
    obtain ⟨hlb, rfl⟩ := List.getElem?_eq_some.mp hx
    have h2 : ¬ s.m_container[s.lower_bound k] < k := fun h => lt_irrefl _ ((hp _ hlb).mp h)
    rcases lt_trichotomy k s.m_container[s.lower_bound k] with h | h | h
    · exact h
    · exact absurd (h ▸ List.getElem_mem hlb) hk
    · exact absurd h h2

theorem insert_of_mem {s : sorted_set Key} (hs : s.strictly_ascending) {k : Key}
    (hk : k ∈ s.m_container) : s.insert k = (s, (s.lower_bound k, false)) := by
  rcases lower_bound_get hs k with ⟨_, h⟩ | ⟨h, _⟩
  · simp only [lower_bound] at h
    simp [insert, lower_bound, h]
  · exact absurd hk h

theorem insert_of_not_mem {s : sorted_set Key} (hs : s.strictly_ascending) {k : Key}
    (hk : k ∉ s.m_container) :
    s.insert k = (⟨vector_insert s.m_container (s.lower_bound k) k⟩, (s.lower_bound k, true)) := by
  rcases lower_bound_get hs k with ⟨h, _⟩ | ⟨_, h⟩
  · exact absurd h hk
  · simp only [lower_bound] at h
    simp only [insert, lower_bound]
    cases hx : s.m_container[std_lower_bound (fun a b => decide (a < b)) s.m_container k]? with
    | none => rfl
    | some x => simp [h x hx]

theorem find_of_mem {s : sorted_set Key} (hs : s.strictly_ascending) {k : Key}
    (hk : k ∈ s.m_container) : s.find k = s.lower_bound k := by
  rcases lower_bound_get hs k with ⟨_, h⟩ | ⟨h, _⟩
  · simp only [lower_bound] at h
    simp [find, lower_bound, h]
  · exact absurd hk h

theorem find_of_not_mem {s : sorted_set Key} (hs : s.strictly_ascending) {k : Key}
    (hk : k ∉ s.m_container) : s.find k = s.cend := by
  rcases lower_bound_get hs k with ⟨h, _⟩ | ⟨_, h⟩
  · exact absurd h hk
  · simp only [lower_bound] at h
    simp only [find]
    cases hx : s.m_container[std_lower_bound (fun a b => decide (a < b)) s.m_container k]? with
    | none => rfl
    | some x => simp [h x hx]

/-- Writing an absent value at its lower bound keeps the sequence strictly ascending. -/
theorem vector_insert_sorted {s : sorted_set Key} (hs : s.strictly_ascending) {k : Key}
    (hk : k ∉ s.m_container) :
    (vector_insert s.m_container (s.lower_bound k) k).Pairwise (· < ·) := by
  obtain ⟨_, hp⟩ := lower_bound_spec hs k
  have hlow : ∀ a ∈ s.m_container.take (s.lower_bound k), a < k := by
    intro a ha
    obtain ⟨i, hi, rfl⟩ := List.mem_take_iff_getElem.mp ha
    have hi2 : i < s.m_container.length := by omega
    exact (hp i hi2).mpr (by omega)
  have hhigh : ∀ b ∈ s.m_container.drop (s.lower_bound k), k < b := by
    intro b hb
    obtain ⟨i, hi, rfl⟩ := List.mem_drop_iff_getElem.mp hb
    have hi2 : s.lower_bound k + i < s.m_container.length := by omega
    have h1 : ¬ s.m_container[s.lower_bound k + i] < k := fun h => by
      have := (hp _ hi2).mp h
      omega
    rcases lt_trichotomy k s.m_container[s.lower_bound k + i] with h | h | h
    · exact h
    · exact absurd (h ▸ List.getElem_mem hi2) hk
    · exact absurd h h1
  unfold vector_insert
  rw [List.pairwise_append]
  refine ⟨hs.sublist (List.take_sublist _ _), ?_, ?_⟩
  · rw [List.pairwise_cons]
    exact ⟨hhigh, hs.sublist (List.drop_sublist _ _)⟩
  · intro a ha b hb
    rcases List.mem_cons.mp hb with rfl | hb
    · exact hlow a ha
    · exact lt_trans (hlow a ha) (hhigh b hb)

theorem insert_strictly_ascending {s : sorted_set Key} (hs : s.strictly_ascending) (k : Key) :
    (s.insert k).1.strictly_ascending := by
  by_cases hk : k ∈ s.m_container
  · rw [insert_of_mem hs hk]
    exact hs
  · rw [insert_of_not_mem hs hk]
    exact vector_insert_sorted hs hk

theorem emplace_eq_insert (s : sorted_set Key) (k : Key) : s.emplace k = s.insert k := rfl

theorem insert_range_strictly_ascending (source : List Key) :
    ∀ {s : sorted_set Key}, s.strictly_ascending → (s.insert_range source).strictly_ascending := by
  induction source with
  | nil => intro s hs; exact hs
  | cons x rest ih =>
    intro s hs
    exact ih (insert_strictly_ascending hs x)

theorem vector_erase_range_sublist {α : Type u} (v : List α) {first last : Nat}
    (h : first ≤ last) : List.Sublist (vector_erase_range v first last) v := by
  unfold vector_erase_range
  have h2 : List.Sublist (v.take first ++ v.drop last) (v.take first ++ v.drop first) :=
    List.Sublist.append (List.Sublist.refl _) (List.drop_sublist_drop_left v h)
  rwa [List.take_append_drop] at h2

theorem erase_strictly_ascending {s : sorted_set Key} (hs : s.strictly_ascending) (pos : Nat) :
    (s.erase pos).1.strictly_ascending :=
  hs.sublist (List.eraseIdx_sublist _ _)

theorem erase_range_strictly_ascending {s : sorted_set Key} (hs : s.strictly_ascending)
    {first last : Nat} (h : first ≤ last) : (s.erase_range first last).1.strictly_ascending :=
  hs.sublist (vector_erase_range_sublist _ h)

theorem erase_key_strictly_ascending {s : sorted_set Key} (hs : s.strictly_ascending)
    (k : Key) : (s.erase_key k).1.strictly_ascending := by
  unfold erase_key
  simp only []
  split
  · exact hs
  · exact hs.sublist (List.eraseIdx_sublist _ _)

theorem apply_strictly_ascending {s t : sorted_set Key} (hs : s.strictly_ascending)
    (op : SetOp Key) (h : SetOp.apply s op = some t) : t.strictly_ascending := by
  cases op with
  | insert value =>
    simp only [SetOp.apply, Option.some.injEq] at h
    exact h ▸ insert_strictly_ascending hs value
  | insert_range source =>
    simp only [SetOp.apply, Option.some.injEq] at h
    exact h ▸ insert_range_strictly_ascending source hs
  | emplace value =>
    simp only [SetOp.apply, Option.some.injEq] at h
    exact h ▸ insert_strictly_ascending hs value
  | erase_key key =>
    simp only [SetOp.apply, Option.some.injEq] at h
    exact h ▸ erase_key_strictly_ascending hs key
  | erase pos =>
    simp only [SetOp.apply] at h
    split at h
    · simp only [Option.some.injEq] at h
      exact h ▸ erase_strictly_ascending hs pos
    · exact absurd h (by simp)
  | erase_range first last =>
    simp only [SetOp.apply] at h
    split at h
    · rename_i hr
      simp only [Option.some.injEq] at h
      exact h ▸ erase_range_strictly_ascending hs hr.1
    · exact absurd h (by simp)

theorem run_strictly_ascending (ops : List (SetOp Key)) :
    ∀ {s t : sorted_set Key}, s.strictly_ascending → run_set_ops s ops = some t →
      t.strictly_ascending := by
  induction ops with
  | nil =>
    intro s t hs h
    simp only [run_set_ops, Option.some.injEq] at h
    exact h ▸ hs
  | cons op rest ih =>
    intro s t hs h
    simp only [run_set_ops] at h
    cases hop : SetOp.apply s op with
    | none => rw [hop] at h; exact absurd h (by simp)
    | some m =>
      rw [hop] at h
      exact ih (apply_strictly_ascending hs op hop) h

theorem getElem?_vector_insert_lt {α : Type u} (v : List α) {pos i : Nat} (x : α)
    (hi : i < pos) (hpos : pos ≤ v.length) : (vector_insert v pos x)[i]? = v[i]? := by
  unfold vector_insert
  rw [List.getElem?_append_left (by simp; omega), List.getElem?_take_of_lt hi]

theorem getElem?_vector_insert_self {α : Type u} (v : List α) {pos : Nat} (x : α)
    (hpos : pos ≤ v.length) : (vector_insert v pos x)[pos]? = some x := by
  unfold vector_insert
  rw [List.getElem?_append_right (by simp)]
  simp [Nat.min_eq_left hpos]

theorem getElem?_vector_insert_gt {α : Type u} (v : List α) {pos i : Nat} (x : α)
    (hi : pos ≤ i) (hpos : pos ≤ v.length) : (vector_insert v pos x)[i + 1]? = v[i]? := by
  unfold vector_insert
  rw [List.getElem?_append_right (by simp; omega)]
  have e : i + 1 - (List.take pos v).length = (i - pos) + 1 := by
    simp [Nat.min_eq_left hpos]; omega
  rw [e, List.getElem?_cons_succ, List.getElem?_drop]
  congr 1
  omega

theorem length_vector_insert {α : Type u} (v : List α) (pos : Nat) (x : α) :
    (vector_insert v pos x).length = v.length + 1 := by
  unfold vector_insert
  have := List.length_take_le pos v
  have h2 : (v.take pos ++ v.drop pos).length = v.length := by rw [List.take_append_drop]
  simp only [List.length_append, List.length_cons] at h2 ⊢
  omega

theorem count_of_mem {s : sorted_set Key} (hs : s.strictly_ascending) {k : Key}
    (hk : k ∈ s.m_container) : s.count k = 1 := by
  rcases lower_bound_get hs k with ⟨_, h⟩ | ⟨h, _⟩
  · simp only [lower_bound] at h
    simp [count, std_binary_search, h]
  · exact absurd hk h

theorem count_of_not_mem {s : sorted_set Key} (hs : s.strictly_ascending) {k : Key}
    (hk : k ∉ s.m_container) : s.count k = 0 := by
  rcases lower_bound_get hs k with ⟨h, _⟩ | ⟨_, h⟩
  · exact absurd h hk
  · simp only [lower_bound] at h
    have hb : std_binary_search (fun a b => decide (a < b)) s.m_container k = false := by
      simp only [std_binary_search]
      cases hx : s.m_container[std_lower_bound (fun a b => decide (a < b)) s.m_container k]? with
      | none => rfl
      | some x => simp [h x hx]
    simp [count, hb]

theorem find_lt_of_mem {s : sorted_set Key} (hs : s.strictly_ascending) {k : Key}
    (hk : k ∈ s.m_container) :
    s.find k < s.m_container.length ∧ s.m_container[s.find k]? = some k := by
  rw [find_of_mem hs hk]
  rcases lower_bound_get hs k with ⟨_, h⟩ | ⟨h, _⟩
  · exact ⟨(List.getElem?_eq_some.mp h).1, h⟩
  · exact absurd hk h

/-- In a sequence without repetition, removing the slot that holds `k` removes
exactly the elements equal to `k`. -/
theorem vector_erase_eq_filter {α : Type u} [DecidableEq α] {v : List α} (hv : v.Nodup)
    {pos : Nat} {k : α} (h : v[pos]? = some k) :
    vector_erase v pos = v.filter (fun x => decide (x ≠ k)) := by
  obtain ⟨hpos, rfl⟩ := List.getElem?_eq_some.mp h
  unfold vector_erase
  rw [← List.Nodup.erase_getElem hv pos hpos, List.Nodup.erase_eq_filter hv]
  apply List.filter_congr
  intro x _
  by_cases hx : x = v[pos] <;> simp [hx]

theorem nodup_of_strictly_ascending {s : sorted_set Key} (hs : s.strictly_ascending) :
    s.m_container.Nodup :=
  List.Pairwise.imp (fun {_ _} h => ne_of_lt h) hs

theorem erase_key_of_mem {s : sorted_set Key} (hs : s.strictly_ascending) {k : Key}
    (hk : k ∈ s.m_container) :
    s.erase_key k = (⟨s.m_container.filter (fun x => decide (x ≠ k))⟩, 1) := by
  obtain ⟨hlt, hget⟩ := find_lt_of_mem hs hk
  have hne : s.find k ≠ s.cend := by
    unfold cend
    omega
  simp only [erase_key, hne, if_false]
  rw [vector_erase_eq_filter (nodup_of_strictly_ascending hs) hget]

theorem erase_key_of_not_mem {s : sorted_set Key} (hs : s.strictly_ascending) {k : Key}
    (hk : k ∉ s.m_container) : s.erase_key k = (s, 0) := by
  simp [erase_key, find_of_not_mem hs hk]

theorem lower_bound_le_upper_bound {s : sorted_set Key} (hs : s.strictly_ascending) (k : Key) :
    s.lower_bound k ≤ s.upper_bound k := by
  obtain ⟨hl, hlp⟩ := lower_bound_spec hs k
  obtain ⟨hu, hup⟩ := upper_bound_spec hs k
  by_contra hnot
  have hlt : s.upper_bound k < s.m_container.length := by omega
  have h1 : s.m_container[s.upper_bound k] < k := (hlp _ hlt).mpr (by omega)
  have := (hup _ hlt).mp (le_of_lt h1)
  omega

theorem erase_key_container_of_mem {s : sorted_set Key} (hs : s.strictly_ascending) {k : Key}
    (hk : k ∈ s.m_container) :
    s.erase_key k = (⟨vector_erase s.m_container (s.find k)⟩, 1) := by
  obtain ⟨hlt, _⟩ := find_lt_of_mem hs hk
  have hne : s.find k ≠ s.cend := by
    unfold cend
    omega
  simp only [erase_key, hne, if_false]

end sorted_set

/-! ## The claims -/

namespace sorted_set

variable {Key : Type u} [LinearOrder Key]

/-- C1. Sort invariant of `sorted_set`: whatever finite sequence of `insert(value)`,
`insert(range/list)`, `emplace`, `erase(key)`, `erase(position)` and
`erase(first, last)` calls is applied to the empty set, the stored sequence is
strictly ascending. -/
theorem sort_invariant (ops : List (SetOp Key)) (s : sorted_set Key)
    (h : run_set_ops (⟨[]⟩ : sorted_set Key) ops = some s) : s.strictly_ascending :=
  run_strictly_ascending ops (s := ⟨[]⟩) List.Pairwise.nil h

theorem sort_invariant_witness :
    run_set_ops (⟨[]⟩ : sorted_set Nat)
        [.insert 5, .insert_range [2, 4, 1, 8, 3, 4], .emplace 7, .erase_key 2, .erase 0,
          .erase_range 1 3] = some ⟨[3, 7, 8]⟩ ∧
      (⟨[3, 7, 8]⟩ : sorted_set Nat).strictly_ascending :=
  ⟨by decide,
    sort_invariant
      [.insert 5, .insert_range [2, 4, 1, 8, 3, 4], .emplace 7, .erase_key 2, .erase 0,
        .erase_range 1 3] ⟨[3, 7, 8]⟩ (by decide)⟩

/-- C2. `insert` of an absent value into a strictly ascending set returns
`(p, true)` with `p` the lower-bound index of the value (every element before `p`
is less than it, no element from `p` on is); the new sequence is the old one with
the value placed at index `p`: the elements before `p` are unchanged, the elements
from `p` on have moved one slot to the right, the element at `p` is the value, the
size has grown by one and the sequence is still strictly ascending. -/
theorem insert_absent (s : sorted_set Key) (v : Key) (hs : s.strictly_ascending)
    (hv : v ∉ s.m_container) :
    (s.insert v).2 = (s.lower_bound v, true) ∧
    s.lower_bound v ≤ s.size ∧
    (∀ i (hi : i < s.m_container.length), s.m_container[i] < v ↔ i < s.lower_bound v) ∧
    (s.insert v).1.m_container
      = s.m_container.take (s.lower_bound v) ++ v :: s.m_container.drop (s.lower_bound v) ∧
    (∀ i, i < s.lower_bound v → (s.insert v).1.m_container[i]? = s.m_container[i]?) ∧
    (s.insert v).1.m_container[s.lower_bound v]? = some v ∧
    (∀ i, s.lower_bound v ≤ i → (s.insert v).1.m_container[i + 1]? = s.m_container[i]?) ∧
    (s.insert v).1.size = s.size + 1 ∧
    (s.insert v).1.strictly_ascending := by
  obtain ⟨hle, hp⟩ := lower_bound_spec hs v
  have hsorted := insert_strictly_ascending hs v
  rw [insert_of_not_mem hs hv] at hsorted ⊢
  refine ⟨rfl, hle, hp, rfl, ?_, ?_, ?_, ?_, hsorted⟩
  · intro i hi
    exact getElem?_vector_insert_lt _ v hi hle
  · exact getElem?_vector_insert_self _ v hle
  · intro i hi
    exact getElem?_vector_insert_gt _ v hi hle
  · exact length_vector_insert _ _ _

theorem insert_absent_witness :
    (⟨[1, 3, 5]⟩ : sorted_set Nat).insert 4 = (⟨[1, 3, 4, 5]⟩, (2, true)) ∧
    ((⟨[1, 3, 5]⟩ : sorted_set Nat).insert 4).1.size = (⟨[1, 3, 5]⟩ : sorted_set Nat).size + 1 :=
  ⟨by decide, (insert_absent (⟨[1, 3, 5]⟩ : sorted_set Nat) 4 (by decide) (by decide)).2.2.2.2.2.2.2.1⟩

/-- C3. Insert idempotence on a strictly ascending set: a second `insert` of the
same value returns `inserted = false` together with the position of the stored
value (the one the first call returned) and leaves the container exactly as the
first call left it; and whenever the value is already stored, `insert` does not
change the container, reports `inserted = false` and returns the position of the
stored value. -/
theorem insert_idempotent (s : sorted_set Key) (v : Key) (hs : s.strictly_ascending) :
    ((s.insert v).1.insert v = ((s.insert v).1, ((s.insert v).2.1, false)) ∧
      (s.insert v).1.m_container[(s.insert v).2.1]? = some v) ∧
    (v ∈ s.m_container →
      s.insert v = (s, (s.find v, false)) ∧ s.m_container[s.find v]? = some v) := by
  have hpresent : ∀ {t : sorted_set Key}, t.strictly_ascending → v ∈ t.m_container →
      t.insert v = (t, (t.lower_bound v, false)) ∧ t.m_container[t.lower_bound v]? = some v := by
    intro t ht hmem
    refine ⟨insert_of_mem ht hmem, ?_⟩
    rcases lower_bound_get ht v with ⟨_, h⟩ | ⟨h, _⟩
    · exact h
    · exact absurd hmem h
  refine ⟨?_, fun hmem => ?_⟩
  · by_cases hmem : v ∈ s.m_container
    · obtain ⟨h1, h2⟩ := hpresent hs hmem
      rw [h1]
      exact ⟨h1, h2⟩
    · obtain ⟨hle, _⟩ := lower_bound_spec hs v
      have hsorted := insert_strictly_ascending hs v
      rw [insert_of_not_mem hs hmem] at hsorted ⊢
      have hat : (vector_insert s.m_container (s.lower_bound v) v)[s.lower_bound v]? = some v :=
        getElem?_vector_insert_self _ v hle
      have hmem2 : v ∈ (⟨vector_insert s.m_container (s.lower_bound v) v⟩ :
          sorted_set Key).m_container := List.mem_iff_getElem?.mpr ⟨_, hat⟩
      obtain ⟨h1, h2⟩ := hpresent hsorted hmem2
      obtain ⟨ha, ea⟩ := List.getElem?_eq_some.mp hat
      obtain ⟨hb, eb⟩ := List.getElem?_eq_some.mp h2
      have hpos := getElem_inj hsorted hb ha (eb.trans ea.symm)
      simp only [] at hpos ⊢
      rw [h1, hpos]
      exact ⟨rfl, hat⟩
  · obtain ⟨h1, h2⟩ := hpresent hs hmem
    rw [find_of_mem hs hmem]
    exact ⟨h1, h2⟩

theorem insert_idempotent_witness :
    ((⟨[1, 3, 5]⟩ : sorted_set Nat).insert 4).1.insert 4 = (⟨[1, 3, 4, 5]⟩, (2, false)) ∧
    (⟨[1, 3, 4, 5]⟩ : sorted_set Nat).insert 3
      = (⟨[1, 3, 4, 5]⟩, ((⟨[1, 3, 4, 5]⟩ : sorted_set Nat).find 3, false)) ∧
    (⟨[1, 3, 4, 5]⟩ : sorted_set Nat).find 3 = 1 :=
  ⟨(insert_idempotent (⟨[1, 3, 5]⟩ : sorted_set Nat) 4 (by decide)).1.1,
    ((insert_idempotent (⟨[1, 3, 4, 5]⟩ : sorted_set Nat) 3 (by decide)).2 (by decide)).1,
    by decide⟩

/-- C6. `find` on a strictly ascending set: when the key is stored, the result is
the position whose element equals the key, and that position is the only one;
when the key is not stored, the result is the end sentinel.  (`find` returns
an iterator only, the container is left as it is.) -/
theorem find_correct (s : sorted_set Key) (k : Key) (hs : s.strictly_ascending) :
    (k ∈ s.m_container →
      s.find k < s.size ∧ s.m_container[s.find k]? = some k ∧
        ∀ j, s.m_container[j]? = some k → j = s.find k) ∧
    (k ∉ s.m_container → s.find k = s.cend) := by
  refine ⟨fun hk => ?_, fun hk => find_of_not_mem hs hk⟩
  obtain ⟨hlt, hget⟩ := find_lt_of_mem hs hk
  refine ⟨hlt, hget, fun j hj => ?_⟩
  obtain ⟨ha, ea⟩ := List.getElem?_eq_some.mp hj
  obtain ⟨hb, eb⟩ := List.getElem?_eq_some.mp hget
  exact getElem_inj hs ha hb (ea.trans eb.symm)

theorem find_correct_witness :
    (sorted_set.of_range [5, 2, 4, 1, 8, 3] : sorted_set Nat) = ⟨[1, 2, 3, 4, 5, 8]⟩ ∧
    (⟨[1, 2, 3, 4, 5, 8]⟩ : sorted_set Nat).find 5 = 4 ∧
    (⟨[1, 2, 3, 4, 5, 8]⟩ : sorted_set Nat).m_container[
      (⟨[1, 2, 3, 4, 5, 8]⟩ : sorted_set Nat).find 5]? = some 5 ∧
    (⟨[1, 2, 3, 4, 5, 8]⟩ : sorted_set Nat).find 6 = (⟨[1, 2, 3, 4, 5, 8]⟩ : sorted_set Nat).cend :=
  ⟨by decide, by decide,
    ((find_correct (⟨[1, 2, 3, 4, 5, 8]⟩ : sorted_set Nat) 5 (by decide)).1 (by decide)).2.1,
    (find_correct (⟨[1, 2, 3, 4, 5, 8]⟩ : sorted_set Nat) 6 (by decide)).2 (by decide)⟩

/-- C7. Bounds on a strictly ascending set: `lower_bound(k)` is the index `i` such
that every element before `i` is less than `k` and no element at or after `i` is
(so `i` is the size when every element is less than `k`); `upper_bound(k)` is the
index `j` such that no element before `j` is greater than `k` and every element at
or after `j` is; and `lower_bound(k) ≤ upper_bound(k)`. -/
theorem bounds_correct (s : sorted_set Key) (k : Key) (hs : s.strictly_ascending) :
    (s.lower_bound k ≤ s.size ∧
      (∀ i (hi : i < s.m_container.length), i < s.lower_bound k → s.m_container[i] < k) ∧
      (∀ i (hi : i < s.m_container.length), s.lower_bound k ≤ i → ¬ s.m_container[i] < k) ∧
      ((∀ x ∈ s.m_container, x < k) → s.lower_bound k = s.size)) ∧
    (s.upper_bound k ≤ s.size ∧
      (∀ i (hi : i < s.m_container.length), i < s.upper_bound k → ¬ k < s.m_container[i]) ∧
      (∀ i (hi : i < s.m_container.length), s.upper_bound k ≤ i → k < s.m_container[i])) ∧
    s.lower_bound k ≤ s.upper_bound k := by
  obtain ⟨hl, hlp⟩ := lower_bound_spec hs k
  obtain ⟨hu, hup⟩ := upper_bound_spec hs k
  refine ⟨⟨hl, fun i hi h => (hlp i hi).mpr h, fun i hi h hlt => ?_, fun hall => ?_⟩,
    ⟨hu, fun i hi h => not_lt.mpr ((hup i hi).mpr h), fun i hi h => ?_⟩, ?_⟩
  · have := (hlp i hi).mp hlt
    omega
  · by_contra hne
    have hlt : s.lower_bound k < s.m_container.length := by
      unfold size at hne
      omega
    have := (hlp _ hlt).mp (hall _ (List.getElem_mem hlt))
    omega
  · by_contra hnot
    have := (hup i hi).mp (not_lt.mp hnot)
    omega
  · exact lower_bound_le_upper_bound hs k

theorem bounds_correct_witness :
    (⟨[1, 2, 3, 4, 5, 8]⟩ : sorted_set Nat).lower_bound 6 = 5 ∧
    (⟨[1, 2, 3, 4, 5, 8]⟩ : sorted_set Nat).upper_bound 5 = 5 ∧
    (⟨[1, 2, 3, 4, 5, 8]⟩ : sorted_set Nat).lower_bound 5
      ≤ (⟨[1, 2, 3, 4, 5, 8]⟩ : sorted_set Nat).upper_bound 5 :=
  ⟨by decide, by decide,
    (bounds_correct (⟨[1, 2, 3, 4, 5, 8]⟩ : sorted_set Nat) 5 (by decide)).2.2⟩

/-- C8. `equal_range` on a strictly ascending set is the pair
`(lower_bound(k), upper_bound(k))`; when `k` is stored the range holds exactly one
element, `k` itself (`upper = lower + 1`, and what `.second` addresses, if anything,
is greater than `k`); when `k` is not stored the range is empty. -/
theorem equal_range_correct (s : sorted_set Key) (k : Key) (hs : s.strictly_ascending) :
    s.equal_range k = (s.lower_bound k, s.upper_bound k) ∧
    (k ∈ s.m_container →
      (s.equal_range k).2 = (s.equal_range k).1 + 1 ∧
      s.m_container[(s.equal_range k).1]? = some k ∧
      ∀ x, s.m_container[(s.equal_range k).2]? = some x → k < x) ∧
    (k ∉ s.m_container → (s.equal_range k).1 = (s.equal_range k).2) := by
  obtain ⟨hl, hlp⟩ := lower_bound_spec hs k
  obtain ⟨hu, hup⟩ := upper_bound_spec hs k
  have hlu := lower_bound_le_upper_bound hs k
  refine ⟨rfl, fun hk => ?_, fun hk => ?_⟩
  · simp only [equal_range]
    have hget : s.m_container[s.lower_bound k]? = some k := by
      rcases lower_bound_get hs k with ⟨_, h⟩ | ⟨h, _⟩
      · exact h
      · exact absurd hk h
    obtain ⟨hlt, hk2⟩ := List.getElem?_eq_some.mp hget
    have h1 : s.lower_bound k < s.upper_bound k := (hup _ hlt).mp (le_of_eq hk2)
    refine ⟨?_, hget, fun x hx => ?_⟩
    · by_contra hne
      have h2 : s.lower_bound k + 1 < s.m_container.length := by omega
      have h3 : s.m_container[s.lower_bound k + 1] ≤ k := (hup _ h2).mpr (by omega)
      have h4 := getElem_lt_getElem hs hlt h2 (Nat.lt_succ_self _)
      rw [hk2] at h4
      exact absurd h4 (not_lt.mpr h3)
    · obtain ⟨hx1, rfl⟩ := List.getElem?_eq_some.mp hx
      by_contra hnot
      have := (hup _ hx1).mp (not_lt.mp hnot)
      omega
  · simp only [equal_range]
    by_contra hne
    have hlt : s.lower_bound k < s.m_container.length := by omega
    have h1 : s.m_container[s.lower_bound k] ≤ k := (hup _ hlt).mpr (by omega)
    have h2 : ¬ s.m_container[s.lower_bound k] < k := fun h => by
      have := (hlp _ hlt).mp h
      omega
    have h3 : s.m_container[s.lower_bound k] = k := le_antisymm h1 (not_lt.mp h2)
    exact hk (h3 ▸ List.getElem_mem hlt)

theorem equal_range_correct_witness :
    (sorted_set.of_range [5, 2, 4, 1, 8, 3] : sorted_set Nat) = ⟨[1, 2, 3, 4, 5, 8]⟩ ∧
    (⟨[1, 2, 3, 4, 5, 8]⟩ : sorted_set Nat).equal_range 5 = (4, 5) ∧
    (⟨[1, 2, 3, 4, 5, 8]⟩ : sorted_set Nat).m_container[4]? = some 5 ∧
    (⟨[1, 2, 3, 4, 5, 8]⟩ : sorted_set Nat).m_container[5]? = some 8 ∧
    ((⟨[1, 2, 3, 4, 5, 8]⟩ : sorted_set Nat).equal_range 5).2
      = ((⟨[1, 2, 3, 4, 5, 8]⟩ : sorted_set Nat).equal_range 5).1 + 1 ∧
    ((⟨[1, 2, 3, 4, 5, 8]⟩ : sorted_set Nat).equal_range 6).1
      = ((⟨[1, 2, 3, 4, 5, 8]⟩ : sorted_set Nat).equal_range 6).2 :=
  ⟨by decide, by decide, by decide, by decide,
    ((equal_range_correct (⟨[1, 2, 3, 4, 5, 8]⟩ : sorted_set Nat) 5 (by decide)).2.1
      (by decide)).1,
    (equal_range_correct (⟨[1, 2, 3, 4, 5, 8]⟩ : sorted_set Nat) 6 (by decide)).2.2
      (by decide)⟩

/-- C9. `count` on a strictly ascending set is 1 when the key is stored and 0
when it is not, never another value, and it is 1 exactly when `find` does not
return the end sentinel.  (`count` returns a number only, the container is left
as it is.) -/
theorem count_correct (s : sorted_set Key) (k : Key) (hs : s.strictly_ascending) :
    s.count k = (if k ∈ s.m_container then 1 else 0) ∧
    (s.count k = 0 ∨ s.count k = 1) ∧
    (s.count k = 1 ↔ s.find k ≠ s.cend) := by
  by_cases hk : k ∈ s.m_container
  · have hc := count_of_mem hs hk
    obtain ⟨hlt, _⟩ := find_lt_of_mem hs hk
    refine ⟨by simp [hk, hc], Or.inr hc, ?_⟩
    constructor
    · intro _
      unfold cend
      omega
    · intro _
      exact hc
  · have hc := count_of_not_mem hs hk
    have hf := find_of_not_mem hs hk
    refine ⟨by simp [hk, hc], Or.inl hc, ?_⟩
    constructor
    · intro h
      omega
    · intro h
      exact absurd hf h

theorem count_correct_witness :
    (⟨[1, 2, 3, 4, 5, 8]⟩ : sorted_set Nat).count 4 = 1 ∧
    (⟨[1, 2, 3, 4, 5, 8]⟩ : sorted_set Nat).count 7 = 0 ∧
    ((⟨[1, 2, 3, 4, 5, 8]⟩ : sorted_set Nat).count 7 = 1 ↔
      (⟨[1, 2, 3, 4, 5, 8]⟩ : sorted_set Nat).find 7
        ≠ (⟨[1, 2, 3, 4, 5, 8]⟩ : sorted_set Nat).cend) :=
  ⟨by decide, by decide,
    (count_correct (⟨[1, 2, 3, 4, 5, 8]⟩ : sorted_set Nat) 7 (by decide)).2.2⟩

/-- C10. `erase(key)` on a strictly ascending set: when the key is stored the call
returns 1 and the new sequence is the old one without the key, every other element
kept in order (so one element shorter), after which `find(key)` is the end sentinel
and `count(key)` is 0; when the key is not stored the call returns 0 and the
container is unchanged. -/
theorem erase_key_correct (s : sorted_set Key) (k : Key) (hs : s.strictly_ascending) :
    (k ∈ s.m_container →
      (s.erase_key k).2 = 1 ∧
      (s.erase_key k).1.m_container = s.m_container.filter (fun x => decide (x ≠ k)) ∧
      (s.erase_key k).1.size + 1 = s.size ∧
      (s.erase_key k).1.find k = (s.erase_key k).1.cend ∧
      (s.erase_key k).1.count k = 0) ∧
    (k ∉ s.m_container → s.erase_key k = (s, 0)) := by
  refine ⟨fun hk => ?_, fun hk => erase_key_of_not_mem hs hk⟩
  have hsorted := erase_key_strictly_ascending hs k
  obtain ⟨hlt, _⟩ := find_lt_of_mem hs hk
  have hlen : (s.erase_key k).1.size + 1 = s.size := by
    rw [erase_key_container_of_mem hs hk]
    simp only [size, vector_erase]
    rw [List.length_eraseIdx_of_lt hlt]
    omega
  rw [erase_key_of_mem hs hk] at hsorted ⊢
  rw [erase_key_of_mem hs hk] at hlen
  have hnot : k ∉ (⟨s.m_container.filter (fun x => decide (x ≠ k))⟩ :
      sorted_set Key).m_container := by
    simp [List.mem_filter]
  exact ⟨rfl, rfl, hlen, find_of_not_mem hsorted hnot, count_of_not_mem hsorted hnot⟩

theorem erase_key_correct_witness :
    (sorted_set.of_range [5, 2, 4, 1, 8, 3] : sorted_set Nat) = ⟨[1, 2, 3, 4, 5, 8]⟩ ∧
    (⟨[1, 2, 3, 4, 5, 8]⟩ : sorted_set Nat).erase_key 2 = (⟨[1, 3, 4, 5, 8]⟩, 1) ∧
    (⟨[1, 3, 4, 5, 8]⟩ : sorted_set Nat).find 2 = (⟨[1, 3, 4, 5, 8]⟩ : sorted_set Nat).cend ∧
    ((⟨[1, 2, 3, 4, 5, 8]⟩ : sorted_set Nat).erase_key 2).1.count 2 = 0 ∧
    (⟨[1, 3, 4, 5, 8]⟩ : sorted_set Nat).erase_key 10 = (⟨[1, 3, 4, 5, 8]⟩, 0) :=
  ⟨by decide, by decide, by decide,
    ((erase_key_correct (⟨[1, 2, 3, 4, 5, 8]⟩ : sorted_set Nat) 2 (by decide)).1
      (by decide)).2.2.2.2,
    (erase_key_correct (⟨[1, 3, 4, 5, 8]⟩ : sorted_set Nat) 10 (by decide)).2 (by decide)⟩

end sorted_set

namespace sorted_map

/-- C4 (the code departs from the claim). `sorted_map::insert` compares whole
pairs: on the map holding `(1, 101)`, the call `insert((1, 202))` does not find the
entry with key 1, reports `inserted = true` and stores a second entry with key 1,
after which `find(1)` still addresses the entry `(1, 101)`. -/
theorem insert_existing_key_other_value :
    (⟨[(1, 101)]⟩ : sorted_map Nat Nat).insert (1, 202)
      = (⟨[(1, 101), (1, 202)]⟩, (1, true)) ∧
    (⟨[(1, 101)]⟩ : sorted_map Nat Nat).insert (1, 101) = (⟨[(1, 101)]⟩, (0, false)) ∧
    (⟨[(1, 101)]⟩ : sorted_map Nat Nat).find 1 = 0 ∧
    (⟨[(1, 101), (1, 202)]⟩ : sorted_map Nat Nat).find 1 = 0 := by
  decide

/-- C5 (the code departs from the claim). Two `insert` calls on the empty map,
`insert((1, 101))` then `insert((1, 202))`, leave two entries with key 1: the keys
of the stored entries are `[1, 1]`, which is not strictly ascending. -/
theorem keys_not_strictly_ascending :
    (((⟨[]⟩ : sorted_map Nat Nat).insert (1, 101)).1.insert (1, 202)).1.keys = [1, 1] ∧
    ¬ ((((⟨[]⟩ : sorted_map Nat Nat).insert (1, 101)).1.insert (1, 202)).1.keys).Pairwise
      (· < ·) := by
  decide

end sorted_map

/-! ## Further facts: positional erase, range insertion, hinted insertion -/

theorem getElem?_vector_erase_range_lt {α : Type u} (v : List α) {first last i : Nat}
    (hi : i < first) (hf : first ≤ v.length) :
    (vector_erase_range v first last)[i]? = v[i]? := by
  unfold vector_erase_range
  rw [List.getElem?_append_left (by simp; omega), List.getElem?_take_of_lt hi]

theorem getElem?_vector_erase_range_ge {α : Type u} (v : List α) {first last i : Nat}
    (hi : first ≤ i) (hfl : first ≤ last) (hf : first ≤ v.length) :
    (vector_erase_range v first last)[i]? = v[i + (last - first)]? := by
  unfold vector_erase_range
  rw [List.getElem?_append_right (by simp; omega), List.getElem?_drop]
  congr 1
  simp [Nat.min_eq_left hf]
  omega

theorem length_vector_erase_range {α : Type u} (v : List α) {first last : Nat}
    (hfl : first ≤ last) (hl : last ≤ v.length) :
    (vector_erase_range v first last).length + (last - first) = v.length := by
  unfold vector_erase_range
  simp only [List.length_append, List.length_take, List.length_drop]
  omega

theorem mem_vector_insert {α : Type u} (v : List α) (pos : Nat) (x y : α) :
    x ∈ vector_insert v pos y ↔ x = y ∨ x ∈ v := by
  unfold vector_insert
  have h : x ∈ v ↔ x ∈ v.take pos ∨ x ∈ v.drop pos := by
    rw [← List.mem_append, List.take_append_drop]
  rw [List.mem_append, List.mem_cons, h]
  tauto

/-- A strictly ascending sequence with the members of `source` is the sequence a
`std::set` filled from `source` iterates. -/
theorem eq_std_set_sequence {Key : Type u} [LinearOrder Key] {t source : List Key}
    (ht : t.Pairwise (· < ·)) (hmem : ∀ x, x ∈ t ↔ x ∈ source) :
    t = std_set_sequence source := by
  unfold std_set_sequence
  have hnd : t.Nodup := List.Pairwise.imp (fun {_ _} h => ne_of_lt h) ht
  have hnd2 : (List.insertionSort (· ≤ ·) source.dedup).Nodup :=
    (List.perm_insertionSort _ _).nodup_iff.mpr (List.nodup_dedup _)
  have hperm : List.Perm t (List.insertionSort (· ≤ ·) source.dedup) := by
    rw [List.perm_ext_iff_of_nodup hnd hnd2]
    intro x
    rw [hmem x, List.mem_insertionSort, List.mem_dedup]
  have hle : List.Sorted (· ≤ ·) t := List.Pairwise.imp (fun {_ _} h => le_of_lt h) ht
  exact List.eq_of_perm_of_sorted hperm hle (List.sorted_insertionSort _ _)

namespace sorted_set

variable {Key : Type u} [LinearOrder Key]

/-- C12. `erase(position)` on a strictly ascending set of size `n`, for a position
`p < n`: the new sequence is the old one without its element at `p` (the elements
before `p` stay, the later ones move one slot to the left), it is one element
shorter and still strictly ascending; the returned iterator is `p`, which now
addresses the element that stood at `p + 1`, and is the end sentinel when `p` was
the last index. -/
theorem erase_position_correct (s : sorted_set Key) (p : Nat) (hs : s.strictly_ascending)
    (hp : p < s.size) :
    (s.erase p).1.m_container = s.m_container.take p ++ s.m_container.drop (p + 1) ∧
    (∀ i, i < p → (s.erase p).1.m_container[i]? = s.m_container[i]?) ∧
    (∀ i, p ≤ i → (s.erase p).1.m_container[i]? = s.m_container[i + 1]?) ∧
    (s.erase p).1.size + 1 = s.size ∧
    (s.erase p).1.strictly_ascending ∧
    (s.erase p).2 = p ∧
    (s.erase p).1.m_container[(s.erase p).2]? = s.m_container[p + 1]? ∧
    (p + 1 = s.size → (s.erase p).2 = (s.erase p).1.cend) := by
  have hlen : (s.m_container.eraseIdx p).length + 1 = s.m_container.length := by
    rw [List.length_eraseIdx_of_lt hp]
    unfold size at hp
    omega
  refine ⟨List.eraseIdx_eq_take_drop_succ _ _, fun i hi => ?_, fun i hi => ?_, hlen,
    erase_strictly_ascending hs p, rfl, ?_, fun hlast => ?_⟩
  · exact List.getElem?_eraseIdx_of_lt _ _ _ hi
  · exact List.getElem?_eraseIdx_of_ge _ _ _ hi
  · exact List.getElem?_eraseIdx_of_ge _ _ _ (le_refl p)
  · simp only [erase, cend, vector_erase]
    unfold size at hlast
    omega

theorem erase_position_correct_witness :
    (⟨[1, 6, 7]⟩ : sorted_set Nat).find 6 = 1 ∧
    (⟨[1, 6, 7]⟩ : sorted_set Nat).erase 1 = (⟨[1, 7]⟩, 1) ∧
    ((⟨[1, 6, 7]⟩ : sorted_set Nat).erase 1).1.m_container[
      ((⟨[1, 6, 7]⟩ : sorted_set Nat).erase 1).2]? = (⟨[1, 6, 7]⟩ : sorted_set Nat).m_container[2]? ∧
    ((⟨[1, 6, 7]⟩ : sorted_set Nat).erase 2).2 = ((⟨[1, 6, 7]⟩ : sorted_set Nat).erase 2).1.cend :=
  ⟨by decide, by decide,
    (erase_position_correct (⟨[1, 6, 7]⟩ : sorted_set Nat) 1 (by decide) (by decide)).2.2.2.2.2.2.1,
    (erase_position_correct (⟨[1, 6, 7]⟩ : sorted_set Nat) 2 (by decide) (by decide)).2.2.2.2.2.2.2
      (by decide)⟩

/-- C13. `erase(first, last)` on a strictly ascending set, for `first ≤ last ≤ size`:
exactly the elements at the indices of the half-open range `[first, last)` are
removed (the elements before `first` stay, the elements from `last` on move
`last - first` slots to the left), the size drops by `last - first`, the result is
still strictly ascending, the returned iterator is `first`, and an empty range
changes nothing. -/
theorem erase_range_correct (s : sorted_set Key) (first last : Nat)
    (hs : s.strictly_ascending) (hfl : first ≤ last) (hl : last ≤ s.size) :
    (s.erase_range first last).1.m_container
      = s.m_container.take first ++ s.m_container.drop last ∧
    (∀ i, i < first → (s.erase_range first last).1.m_container[i]? = s.m_container[i]?) ∧
    (∀ i, first ≤ i →
      (s.erase_range first last).1.m_container[i]? = s.m_container[i + (last - first)]?) ∧
    (s.erase_range first last).1.size + (last - first) = s.size ∧
    (s.erase_range first last).1.strictly_ascending ∧
    (s.erase_range first last).2 = first ∧
    (first = last → (s.erase_range first last).1 = s) := by
  have hf : first ≤ s.m_container.length := le_trans hfl hl
  refine ⟨rfl, fun i hi => getElem?_vector_erase_range_lt _ hi hf,
    fun i hi => getElem?_vector_erase_range_ge _ hi hfl hf,
    length_vector_erase_range _ hfl hl, erase_range_strictly_ascending hs hfl, rfl,
    fun he => ?_⟩
  subst he
  simp [erase_range, vector_erase_range]

theorem erase_range_correct_witness :
    (sorted_set.of_range [5, 2, 4, 1, 8, 3] : sorted_set Nat) = ⟨[1, 2, 3, 4, 5, 8]⟩ ∧
    (⟨[1, 2, 3, 4, 5, 8]⟩ : sorted_set Nat).erase_range
      ((⟨[1, 2, 3, 4, 5, 8]⟩ : sorted_set Nat).find 2)
      ((⟨[1, 2, 3, 4, 5, 8]⟩ : sorted_set Nat).find 4) = (⟨[1, 4, 5, 8]⟩, 1) ∧
    ((⟨[1, 2, 3, 4, 5, 8]⟩ : sorted_set Nat).erase_range 1 3).1.size + (3 - 1)
      = (⟨[1, 2, 3, 4, 5, 8]⟩ : sorted_set Nat).size ∧
    ((⟨[1, 2, 3, 4, 5, 8]⟩ : sorted_set Nat).erase_range 2 2).1 = ⟨[1, 2, 3, 4, 5, 8]⟩ :=
  ⟨by decide, by decide,
    (erase_range_correct (⟨[1, 2, 3, 4, 5, 8]⟩ : sorted_set Nat) 1 3 (by decide) (by decide)
      (by decide)).2.2.2.1,
    (erase_range_correct (⟨[1, 2, 3, 4, 5, 8]⟩ : sorted_set Nat) 2 2 (by decide) (by decide)
      (by decide)).2.2.2.2.2.2 rfl⟩

theorem mem_insert {s : sorted_set Key} (hs : s.strictly_ascending) (v x : Key) :
    x ∈ (s.insert v).1.m_container ↔ x = v ∨ x ∈ s.m_container := by
  by_cases hv : v ∈ s.m_container
  · rw [insert_of_mem hs hv]
    constructor
    · exact fun h => Or.inr h
    · rintro (rfl | h)
      · exact hv
      · exact h
  · rw [insert_of_not_mem hs hv]
    exact mem_vector_insert _ _ _ _

theorem mem_insert_range (source : List Key) :
    ∀ {s : sorted_set Key}, s.strictly_ascending → ∀ x,
      (x ∈ (s.insert_range source).m_container ↔ x ∈ s.m_container ∨ x ∈ source) := by
  induction source with
  | nil => intro s _ x; simp [insert_range]
  | cons y rest ih =>
    intro s hs x
    simp only [insert_range]
    rw [ih (insert_strictly_ascending hs y) x, mem_insert hs, List.mem_cons]
    tauto

theorem insert_range_eq_foldl (source : List Key) :
    ∀ s : sorted_set Key,
      s.insert_range source = source.foldl (fun acc x => (acc.insert x).1) s := by
  induction source with
  | nil => intro s; rfl
  | cons y rest ih => intro s; simp only [insert_range, List.foldl_cons, ih]

/-- C14. Range insertion and construction of a `sorted_set`: `insert(first, last)`
is the loop that inserts the source elements one by one in source order; on a
strictly ascending set, whatever the order and the repetitions of the source, the
result is strictly ascending and its members are exactly the elements of the set
together with the elements of the source (so each once), that is, the sequence a
`std::set` of those elements iterates.  The range constructor is the case of the
empty set. -/
theorem insert_range_correct (s : sorted_set Key) (source : List Key)
    (hs : s.strictly_ascending) :
    s.insert_range source = source.foldl (fun acc x => (acc.insert x).1) s ∧
    (s.insert_range source).strictly_ascending ∧
    (∀ x, x ∈ (s.insert_range source).m_container ↔ x ∈ s.m_container ∨ x ∈ source) ∧
    (s.insert_range source).m_container = std_set_sequence (s.m_container ++ source) ∧
    (of_range source : sorted_set Key) = (⟨[]⟩ : sorted_set Key).insert_range source ∧
    (of_range source : sorted_set Key).m_container = std_set_sequence source := by
  have hsorted := insert_range_strictly_ascending source hs
  have hmem := mem_insert_range source hs
  refine ⟨insert_range_eq_foldl source s, hsorted, hmem, ?_, rfl, ?_⟩
  · exact eq_std_set_sequence hsorted (fun x => by rw [hmem x, List.mem_append])
  · have hnil : (⟨[]⟩ : sorted_set Key).strictly_ascending := List.Pairwise.nil
    exact eq_std_set_sequence (insert_range_strictly_ascending source hnil)
      (fun x => by
        have := mem_insert_range source hnil x
        simpa [of_range] using this)

theorem insert_range_correct_witness :
    (sorted_set.of_range [5, 2, 4, 1, 8, 3] : sorted_set Nat) = ⟨[1, 2, 3, 4, 5, 8]⟩ ∧
    (⟨[]⟩ : sorted_set Nat).insert_range [5, 3, 5, 3, 2, 4] = ⟨[2, 3, 4, 5]⟩ ∧
    (⟨[2, 6]⟩ : sorted_set Nat).insert_range [5, 3, 5, 3, 2, 4] = ⟨[2, 3, 4, 5, 6]⟩ ∧
    ((⟨[2, 6]⟩ : sorted_set Nat).insert_range [5, 3, 5, 3, 2, 4]).m_container
      = std_set_sequence ((⟨[2, 6]⟩ : sorted_set Nat).m_container ++ [5, 3, 5, 3, 2, 4]) :=
  ⟨by decide, by decide, by decide,
    (insert_range_correct (⟨[2, 6]⟩ : sorted_set Nat) [5, 3, 5, 3, 2, 4] (by decide)).2.2.2.1⟩

theorem insert_get {s : sorted_set Key} (hs : s.strictly_ascending) (v : Key) :
    (s.insert v).1.m_container[(s.insert v).2.1]? = some v := by
  by_cases hv : v ∈ s.m_container
  · rw [insert_of_mem hs hv]
    rcases lower_bound_get hs v with ⟨_, h⟩ | ⟨h, _⟩
    · exact h
    · exact absurd hv h
  · rw [insert_of_not_mem hs hv]
    exact getElem?_vector_insert_self _ v (lower_bound_spec hs v).1

/-- The scan of the hinted insert started at a slot from which every element is
greater than the value ends as the hint-free insert does. -/
theorem insert_hint_scan_usable {s : sorted_set Key} (hs : s.strictly_ascending) (v : Key) :
    ∀ n, n ≤ s.m_container.length →
      (∀ i (hi : i < s.m_container.length), n ≤ i → v < s.m_container[i]) →
      insert_hint_scan s v n = ((s.insert v).1, (s.insert v).2.1) := by
  intro n
  induction n with
  | zero => intro _ _; rfl
  | succ it ih =>
    intro hn hgt
    have hit : it < s.m_container.length := hn
    obtain ⟨hle, hp⟩ := lower_bound_spec hs v
    simp only [insert_hint_scan, List.getElem?_eq_getElem hit]
    by_cases heq : s.m_container[it] = v
    · have hv : v ∈ s.m_container := heq ▸ List.getElem_mem hit
      simp only [heq, if_true]
      rw [insert_of_mem hs hv]
      rcases lower_bound_get hs v with ⟨_, h⟩ | ⟨h, _⟩
      · obtain ⟨hb, eb⟩ := List.getElem?_eq_some.mp h
        have := getElem_inj hs hit hb (heq.trans eb.symm)
        simp only [this]
      · exact absurd hv h
    · simp only [heq, if_false]
      by_cases hlt : s.m_container[it] < v
      · simp only [hlt, if_true]
        have h1 : it < s.lower_bound v := (hp it hit).mp hlt
        have h2 : s.lower_bound v = it + 1 := by
          by_contra hne
          have h3 : it + 1 < s.m_container.length := by omega
          have h4 := (hp _ h3).mpr (by omega)
          exact absurd (hgt _ h3 (le_refl _)) (not_lt.mpr (le_of_lt h4))
        have hv : v ∉ s.m_container := by
          intro hmem
          obtain ⟨j, hj, rfl⟩ := List.mem_iff_getElem.mp hmem
          rcases Nat.lt_or_ge j (it + 1) with hjl | hjg
          · rcases Nat.lt_or_ge j it with hjl2 | hjg2
            · exact absurd (lt_trans (getElem_lt_getElem hs hj hit hjl2) hlt) (lt_irrefl _)
            · have : j = it := by omega
              subst this
              exact heq rfl
          · exact absurd (hgt j hj hjg) (lt_irrefl _)
        rw [insert_of_not_mem hs hv, h2]
      · simp only [hlt, if_false]
        refine ih (le_of_lt hit) (fun i hi hge => ?_)
        rcases Nat.eq_or_lt_of_le hge with he | hl
        · subst he
          rcases lt_trichotomy v s.m_container[it] with h | h | h
          · exact h
          · exact absurd h.symm heq
          · exact absurd h hlt
        · exact hgt i hi hl

/-- The scan of the hinted insert stops at the first slot, going down, that holds
the value, when no slot met before it holds a smaller element. -/
theorem insert_hint_scan_duplicate (s : sorted_set Key) (v : Key) (j : Nat)
    (hj : s.m_container[j]? = some v) :
    ∀ n, j < n → n ≤ s.m_container.length →
      (∀ i (hi : i < s.m_container.length), j < i → i < n →
        s.m_container[i] ≠ v ∧ ¬ s.m_container[i] < v) →
      insert_hint_scan s v n = (s, j) := by
  intro n
  induction n with
  | zero => intro h; omega
  | succ it ih =>
    intro hjn hn hscan
    have hit : it < s.m_container.length := hn
    simp only [insert_hint_scan, List.getElem?_eq_getElem hit]
    rcases Nat.eq_or_lt_of_le (Nat.lt_succ_iff.mp hjn) with he | hl
    · subst he
      have hv : s.m_container[j] = v := by
        rw [List.getElem?_eq_getElem hit] at hj
        exact Option.some.inj hj
      simp only [hv, if_true]
    · obtain ⟨h1, h2⟩ := hscan it hit hl (Nat.lt_succ_self _)
      simp only [h1, h2, if_false]
      exact ih hl (le_of_lt hit) (fun i hi hji hin => hscan i hi hji (Nat.lt_succ_of_lt hin))

theorem emplace_hint_scan_eq_insert_hint_scan (s : sorted_set Key) (v : Key) :
    ∀ n, emplace_hint_scan s v n = insert_hint_scan s v n := by
  intro n
  induction n with
  | zero => rfl
  | succ it ih => simp only [emplace_hint_scan, insert_hint_scan, ih]

/-- C18. Hinted insert with a usable hint: on a strictly ascending set, when the
hint is `begin()`, or every element at or after the hint (the hint may be the end)
is greater than the value, `insert(pos, value)` leaves exactly the container that
`insert(value)` leaves, and the returned position holds the value. -/
theorem insert_hint_usable (s : sorted_set Key) (p : Nat) (v : Key)
    (hs : s.strictly_ascending) (hp : p ≤ s.size)
    (hint : p = 0 ∨ ∀ i (hi : i < s.m_container.length), p ≤ i → v < s.m_container[i]) :
    (s.insert_hint p v).1 = (s.insert v).1 ∧
    (s.insert_hint p v).1.m_container[(s.insert_hint p v).2]? = some v := by
  have h : s.insert_hint p v = ((s.insert v).1, (s.insert v).2.1) := by
    rcases hint with h0 | hgt
    · subst h0
      rfl
    · exact insert_hint_scan_usable hs v p hp hgt
  rw [h]
  exact ⟨rfl, insert_get hs v⟩

theorem insert_hint_usable_witness :
    (⟨[1, 2, 3, 5, 6]⟩ : sorted_set Nat).find 5 = 3 ∧
    (⟨[1, 2, 3, 5, 6]⟩ : sorted_set Nat).find 1 = 0 ∧
    (⟨[1, 2, 3, 5, 6]⟩ : sorted_set Nat).insert_hint 3 4 = (⟨[1, 2, 3, 4, 5, 6]⟩, 3) ∧
    (⟨[1, 2, 3, 5, 6]⟩ : sorted_set Nat).insert_hint 0 4 = (⟨[1, 2, 3, 4, 5, 6]⟩, 3) ∧
    ((⟨[1, 2, 3, 5, 6]⟩ : sorted_set Nat).insert_hint 3 4).1
      = ((⟨[1, 2, 3, 5, 6]⟩ : sorted_set Nat).insert 4).1 ∧
    ((⟨[1, 2, 3, 5, 6]⟩ : sorted_set Nat).insert_hint 0 4).1
      = ((⟨[1, 2, 3, 5, 6]⟩ : sorted_set Nat).insert 4).1 :=
  ⟨by decide, by decide, by decide, by decide,
    (insert_hint_usable (⟨[1, 2, 3, 5, 6]⟩ : sorted_set Nat) 3 4 (by decide) (by decide)
      (Or.inr (by decide))).1,
    (insert_hint_usable (⟨[1, 2, 3, 5, 6]⟩ : sorted_set Nat) 0 4 (by decide) (by decide)
      (Or.inl rfl)).1⟩

/-- C19. Duplicate met during the hinted scan: on a strictly ascending set, when the
slot `j` below the hint holds the value and no slot between `j` and the hint holds
a smaller element (so the backward scan reaches the equal element first), neither
`insert(pos, value)` nor `emplace_hint` inserts anything: the container is
unchanged and the returned position is `j`. -/
theorem hinted_scan_duplicate (s : sorted_set Key) (p j : Nat) (v : Key)
    (hs : s.strictly_ascending) (hp : p ≤ s.size) (hj : j < p)
    (hv : s.m_container[j]? = some v)
    (hscan : ∀ i (hi : i < s.m_container.length), j < i → i < p → ¬ s.m_container[i] < v) :
    s.insert_hint p v = (s, j) ∧ s.emplace_hint p v = (s, j) := by
  obtain ⟨hjl, hjv⟩ := List.getElem?_eq_some.mp hv
  have h : insert_hint_scan s v p = (s, j) :=
    insert_hint_scan_duplicate s v j hv p hj hp (fun i hi hji hip =>
      ⟨fun he => by
        have := getElem_inj hs hi hjl (he.trans hjv.symm)
        omega, hscan i hi hji hip⟩)
  refine ⟨h, ?_⟩
  unfold emplace_hint
  rw [emplace_hint_scan_eq_insert_hint_scan]
  exact h

theorem hinted_scan_duplicate_witness :
    (⟨[1, 2, 3, 5, 6]⟩ : sorted_set Nat).insert_hint 4 2 = (⟨[1, 2, 3, 5, 6]⟩, 1) ∧
    (⟨[1, 2, 3, 5, 6]⟩ : sorted_set Nat).emplace_hint 4 2 = (⟨[1, 2, 3, 5, 6]⟩, 1) :=
  hinted_scan_duplicate (⟨[1, 2, 3, 5, 6]⟩ : sorted_set Nat) 4 1 2 (by decide) (by decide)
    (by decide) (by decide) (by decide)

/-- C16 (the code departs from the claim). A hint placed before the slot where the
value belongs, other than `begin()`: on `[1, 2, 3, 5, 6]` the call `insert(pos, 4)`
with `pos` at index 1 meets `1 < 4` at once and writes 4 at index 1, leaving
`[1, 4, 2, 3, 5, 6]`, while the hint-free `insert(4)` leaves `[1, 2, 3, 4, 5, 6]`. -/
theorem insert_hint_early_hint :
    (⟨[1, 2, 3, 5, 6]⟩ : sorted_set Nat).strictly_ascending ∧
    (⟨[1, 2, 3, 5, 6]⟩ : sorted_set Nat).insert_hint 1 4 = (⟨[1, 4, 2, 3, 5, 6]⟩, 1) ∧
    ((⟨[1, 2, 3, 5, 6]⟩ : sorted_set Nat).insert 4).1 = ⟨[1, 2, 3, 4, 5, 6]⟩ ∧
    ((⟨[1, 2, 3, 5, 6]⟩ : sorted_set Nat).insert_hint 1 4).1
      ≠ ((⟨[1, 2, 3, 5, 6]⟩ : sorted_set Nat).insert 4).1 := by
  decide

/-- C17 (the code departs from the claim). With the hint at index 1 the sequences
that `insert(pos, 4)` and `emplace_hint(pos, 4)` leave from `[1, 2, 3, 5, 6]` are
not strictly ascending, and from `[1, 4, 5]` the call `insert(pos, 5)` leaves
`[1, 5, 4, 5]`, which holds 5 twice. -/
theorem hinted_insert_breaks_order :
    ¬ ((⟨[1, 2, 3, 5, 6]⟩ : sorted_set Nat).insert_hint 1 4).1.strictly_ascending ∧
    ¬ ((⟨[1, 2, 3, 5, 6]⟩ : sorted_set Nat).emplace_hint 1 4).1.strictly_ascending ∧
    (⟨[1, 4, 5]⟩ : sorted_set Nat).strictly_ascending ∧
    (⟨[1, 4, 5]⟩ : sorted_set Nat).insert_hint 1 5 = (⟨[1, 5, 4, 5]⟩, 1) ∧
    (⟨[1, 4, 5]⟩ : sorted_set Nat).emplace_hint 1 5 = (⟨[1, 5, 4, 5]⟩, 1) := by
  decide

end sorted_set

/-- C20. `emplace` applies the algorithm of `insert`: for every set and value,
`emplace(value)` returns the pair (position, inserted) and leaves the container
that `insert(value)` does.  On `{1, 6, 7}`, `emplace(5)` gives `[1, 5, 6, 7]` with
`inserted = true`, and a second `emplace(5)` gives `inserted = false`. -/
theorem emplace_same_as_insert :
    (∀ {K : Type u} [LT K] [DecidableRel (α := K) (· < ·)] (s : sorted_set K) (v : K),
      s.emplace v = s.insert v) ∧
    (sorted_set.of_range [1, 6, 7] : sorted_set Nat) = ⟨[1, 6, 7]⟩ ∧
    (⟨[1, 6, 7]⟩ : sorted_set Nat).emplace 5 = (⟨[1, 5, 6, 7]⟩, (1, true)) ∧
    (⟨[1, 5, 6, 7]⟩ : sorted_set Nat).emplace 5 = (⟨[1, 5, 6, 7]⟩, (1, false)) :=
  ⟨fun _ _ => rfl, by decide, by decide, by decide⟩

namespace sorted_map

/-- C11 (the code departs from the claim). On the map that `insert((1, 101))` and
`insert((1, 202))` build from the empty map, `erase(1)` returns 1 and removes one
entry only; afterwards `find(1)` is position 0, not the end sentinel: the entry
`(1, 202)` with key 1 remains. -/
theorem erase_key_leaves_same_key :
    (((⟨[]⟩ : sorted_map Nat Nat).insert (1, 101)).1.insert (1, 202)).1
      = ⟨[(1, 101), (1, 202)]⟩ ∧
    (⟨[(1, 101), (1, 202)]⟩ : sorted_map Nat Nat).erase_key 1 = (⟨[(1, 202)]⟩, 1) ∧
    ((⟨[(1, 101), (1, 202)]⟩ : sorted_map Nat Nat).erase_key 1).1.find 1 = 0 ∧
    ((⟨[(1, 101), (1, 202)]⟩ : sorted_map Nat Nat).erase_key 1).1.find 1
      ≠ ((⟨[(1, 101), (1, 202)]⟩ : sorted_map Nat Nat).erase_key 1).1.cend := by
  decide

/-- C15 (the code departs from the claim). A source list that repeats a key with
two mapped values yields two entries with that key, from the constructor and from
range insertion alike; and from `[(1, 202), (1, 101)]` the entry that `find(1)`
addresses is `(1, 101)`, the second occurrence, not the first. -/
theorem of_range_repeated_key :
    (sorted_map.of_range [(1, 101), (1, 202)] : sorted_map Nat Nat)
      = ⟨[(1, 101), (1, 202)]⟩ ∧
    (⟨[]⟩ : sorted_map Nat Nat).insert_range [(1, 101), (1, 202)]
      = ⟨[(1, 101), (1, 202)]⟩ ∧
    (sorted_map.of_range [(1, 202), (1, 101)] : sorted_map Nat Nat)
      = ⟨[(1, 101), (1, 202)]⟩ ∧
    (sorted_map.of_range [(1, 202), (1, 101)] : sorted_map Nat Nat).m_container[
      (sorted_map.of_range [(1, 202), (1, 101)] : sorted_map Nat Nat).find 1]?
      = some (1, 101) := by
  decide

end sorted_map

/-! ## Further facts: the comparison operators -/

section comparison

variable {α : Type u}

theorem std_equal_iff (eq : α → α → Bool) (heq : ∀ x y, eq x y = true ↔ x = y) :
    ∀ a b : List α, a.length = b.length → (std_equal eq a b = true ↔ a = b) := by
  intro a
  induction a with
  | nil =>
    intro b hlen
    cases b with
    | nil => simp [std_equal]
    | cons y ys => simp at hlen
  | cons x xs ih =>
    intro b hlen
    cases b with
    | nil => simp at hlen
    | cons y ys =>
      have hlen2 : xs.length = ys.length := by simpa using hlen
      simp only [std_equal]
      by_cases hxy : eq x y = true
      · have := (heq x y).mp hxy
        subst this
        simp [hxy, ih ys hlen2]
      · have hne : x ≠ y := fun h => hxy ((heq x y).mpr h)
        simp [hxy, hne]

theorem vector_eq_iff (eq : α → α → Bool) (heq : ∀ x y, eq x y = true ↔ x = y)
    (a b : List α) : vector_eq eq a b = true ↔ a = b := by
  unfold vector_eq
  by_cases hlen : a.length = b.length
  · simp [hlen, std_equal_iff eq heq a b hlen]
  · have hne : a ≠ b := fun h => hlen (by rw [h])
    simp [hlen, hne]

theorem list_eq_iff_getElem? (a b : List α) :
    a = b ↔ a.length = b.length ∧ ∀ i : Nat, a[i]? = b[i]? := by
  constructor
  · rintro rfl
    exact ⟨rfl, fun _ => rfl⟩
  · rintro ⟨_, h⟩
    exact List.ext_getElem? h

theorem pair_eq_iff {K : Type u} {T : Type v} [DecidableEq K] [DecidableEq T] (x y : K × T) :
    pair_eq x y = true ↔ x = y := by
  simp [pair_eq, Prod.ext_iff]

/-- The loop of `std::lexicographical_compare` decides the lexicographic order of
the two sequences. -/
theorem std_lexicographical_compare_iff_lex [LinearOrder α] :
    ∀ a b : List α,
      std_lexicographical_compare (fun x y => decide (x < y)) a b = true
        ↔ List.Lex (· < ·) a b := by
  intro a
  induction a with
  | nil =>
    intro b
    cases b with
    | nil => simp [std_lexicographical_compare, List.Lex.not_nil_right]
    | cons y ys => simp [std_lexicographical_compare, List.Lex.nil]
  | cons x xs ih =>
    intro b
    cases b with
    | nil => simp [std_lexicographical_compare, List.Lex.not_nil_right]
    | cons y ys =>
      simp only [std_lexicographical_compare, decide_eq_true_eq]
      rcases lt_trichotomy x y with hlt | heq | hgt
      · simp only [hlt, if_true, true_iff]
        exact List.Lex.rel hlt
      · subst heq
        simp only [lt_irrefl, if_false]
        rw [ih ys, List.Lex.cons_iff]
      · have hnlt : ¬ x < y := not_lt.mpr (le_of_lt hgt)
        simp only [hnlt, hgt, if_false, if_true]
        constructor
        · intro h
          exact absurd h (by simp)
        · intro h
          cases h with
          | cons h => exact absurd hgt (lt_irrefl _)
          | rel h => exact absurd h hnlt

/-- The loop of `std::lexicographical_compare`, read by positions: it answers true
exactly when the first sequence is a strict beginning of the second, or when at the
first position where the two differ the element of the first is the smaller. -/
theorem std_lexicographical_compare_iff_index [LinearOrder α] :
    ∀ a b : List α,
      std_lexicographical_compare (fun x y => decide (x < y)) a b = true ↔
        ((a.length < b.length ∧ ∀ i : Nat, i < a.length → a[i]? = b[i]?) ∨
          ∃ (i : Nat) (x y : α), a[i]? = some x ∧ b[i]? = some y ∧ x < y ∧
            ∀ j : Nat, j < i → a[j]? = b[j]?) := by
  intro a
  induction a with
  | nil =>
    intro b
    cases b with
    | nil => simp [std_lexicographical_compare]
    | cons y ys => simp [std_lexicographical_compare]
  | cons x xs ih =>
    intro b
    cases b with
    | nil => simp [std_lexicographical_compare]
    | cons y ys =>
      simp only [std_lexicographical_compare, decide_eq_true_eq]
      rcases lt_trichotomy x y with hlt | heq | hgt
      · simp only [hlt, if_true, true_iff]
        exact Or.inr ⟨0, x, y, by simp, by simp, hlt, fun j hj => absurd hj (Nat.not_lt_zero j)⟩
      · subst heq
        simp only [lt_irrefl, if_false]
        rw [ih ys]
        constructor
        · rintro (⟨hlen, hpre⟩ | ⟨i, a, b, ha, hb, hab, hpre⟩)
          · refine Or.inl ⟨by simpa using hlen, fun i hi => ?_⟩
            cases i with
            | zero => simp
            | succ k => simpa using hpre k (by simpa using hi)
          · refine Or.inr ⟨i + 1, a, b, by simpa using ha, by simpa using hb, hab, fun j hj => ?_⟩
            cases j with
            | zero => simp
            | succ k => simpa using hpre k (by omega)
        · rintro (⟨hlen, hpre⟩ | ⟨i, a, b, ha, hb, hab, hpre⟩)
          · refine Or.inl ⟨by simpa using hlen, fun i hi => ?_⟩
            simpa using hpre (i + 1) (by simpa using hi)
          · cases i with
            | zero =>
              simp only [List.getElem?_cons_zero, Option.some.injEq] at ha hb
              subst ha
              subst hb
              exact absurd hab (lt_irrefl _)
            | succ k =>
              refine Or.inr ⟨k, a, b, by simpa using ha, by simpa using hb, hab, fun j hj => ?_⟩
              simpa using hpre (j + 1) (by omega)
      · have hnlt : ¬ x < y := not_lt.mpr (le_of_lt hgt)
        have hne : x ≠ y := ne_of_gt hgt
        simp only [hnlt, hgt, if_false, if_true]
        constructor
        · intro h
          exact absurd h (by simp)
        · rintro (⟨_, hpre⟩ | ⟨i, a, b, ha, hb, hab, hpre⟩)
          · have := hpre 0 (by simp)
            simp only [List.getElem?_cons_zero, Option.some.injEq] at this
            exact absurd this hne
          · cases i with
            | zero =>
              simp only [List.getElem?_cons_zero, Option.some.injEq] at ha hb
              subst ha
              subst hb
              exact absurd hab hnlt
            | succ k =>
              have := hpre 0 (by omega)
              simp only [List.getElem?_cons_zero, Option.some.injEq] at this
              exact absurd this hne

end comparison

namespace sorted_set

variable {Key : Type u} [LinearOrder Key]

theorem op_eq_iff (A B : sorted_set Key) : A.op_eq B = true ↔ A.m_container = B.m_container :=
  vector_eq_iff _ (fun x y => by simp) _ _

theorem op_lt_iff_lex (A B : sorted_set Key) :
    A.op_lt B = true ↔ List.Lex (· < ·) A.m_container B.m_container :=
  std_lexicographical_compare_iff_lex _ _

end sorted_set

/-- C26. Container equality: for two sets, and for two maps, `A == B` holds exactly
when the two have the same length and equal elements at every index, and `A != B`
is the negation of `A == B`.  An entry of a map equals another only when key and
mapped value are both equal: the maps `{(1, 101), (2, 202)}` and
`{(1, 101), (2, 203)}`, with the same keys, are not equal. -/
theorem equality_correct :
    (∀ {K : Type u} [DecidableEq K] (A B : sorted_set K),
      (A.op_eq B = true ↔ A.size = B.size ∧ ∀ i : Nat, A.m_container[i]? = B.m_container[i]?) ∧
      A.op_ne B = !(A.op_eq B)) ∧
    (∀ {K : Type u} {T : Type v} [DecidableEq K] [DecidableEq T] (A B : sorted_map K T),
      (A.op_eq B = true ↔ A.size = B.size ∧ ∀ i : Nat, A.m_container[i]? = B.m_container[i]?) ∧
      A.op_ne B = !(A.op_eq B)) ∧
    (∀ {K : Type u} {T : Type v} [DecidableEq K] [DecidableEq T] (x y : K × T),
      pair_eq x y = true ↔ x.1 = y.1 ∧ x.2 = y.2) ∧
    (⟨[(1, 101), (2, 202)]⟩ : sorted_map Nat Nat).op_eq ⟨[(1, 101), (2, 203)]⟩ = false ∧
    (⟨[(1, 101), (2, 202)]⟩ : sorted_map Nat Nat).op_ne ⟨[(1, 101), (2, 203)]⟩ = true ∧
    (⟨[(1, 101), (2, 202)]⟩ : sorted_map Nat Nat).op_eq ⟨[(1, 101), (2, 202)]⟩ = true := by
  refine ⟨fun A B => ⟨?_, rfl⟩, fun A B => ⟨?_, rfl⟩, fun x y => ?_, by decide, by decide,
    by decide⟩
  · have h : A.op_eq B = true ↔ A.m_container = B.m_container :=
      vector_eq_iff _ (fun x y => by simp) _ _
    rw [h, list_eq_iff_getElem?]
    rfl
  · have h : A.op_eq B = true ↔ A.m_container = B.m_container :=
      vector_eq_iff _ pair_eq_iff _ _
    rw [h, list_eq_iff_getElem?]
    rfl
  · simp [pair_eq]

namespace sorted_set

variable {Key : Type u} [LinearOrder Key]

/-- C21. `emplace_hint` mirrors the hinted `insert`: for every set, hint position
and value, `emplace_hint(hint, value)` returns the position and leaves the
container that `insert(pos, value)` (const-reference overload) does.  On
`{1, 2, 3, 5, 6}` with the hint at the position of 5, both give `[1, 2, 3, 4, 5, 6]`. -/
theorem emplace_hint_mirrors_insert_hint :
    (∀ (s : sorted_set Key) (p : Nat) (v : Key), s.emplace_hint p v = s.insert_hint p v) ∧
    (⟨[1, 2, 3, 5, 6]⟩ : sorted_set Nat).find 5 = 3 ∧
    (⟨[1, 2, 3, 5, 6]⟩ : sorted_set Nat).emplace_hint 3 4 = (⟨[1, 2, 3, 4, 5, 6]⟩, 3) ∧
    (⟨[1, 2, 3, 5, 6]⟩ : sorted_set Nat).insert_hint 3 4 = (⟨[1, 2, 3, 4, 5, 6]⟩, 3) :=
  ⟨fun s p v => emplace_hint_scan_eq_insert_hint_scan s v p, by decide, by decide, by decide⟩

/-- C27. The order of two sets is lexicographic: `A < B` holds exactly when `A` is a
strict beginning of `B` (shorter, and equal to `B` at every index of `A`), or when
at the first index where the two differ the element of `A` is less than the element
of `B`.  So the empty set is less than every set that is not empty, and no set is
less than itself.  `[1, 2, 3, 4, 5, 8] < [1, 2, 3, 4, 6, 8]`. -/
theorem order_is_lexicographic :
    (∀ A B : sorted_set Key,
      A.op_lt B = true ↔
        ((A.size < B.size ∧ ∀ i : Nat, i < A.size → A.m_container[i]? = B.m_container[i]?) ∨
          ∃ (i : Nat) (x y : Key), A.m_container[i]? = some x ∧ B.m_container[i]? = some y ∧
            x < y ∧ ∀ j : Nat, j < i → A.m_container[j]? = B.m_container[j]?)) ∧
    (∀ B : sorted_set Key, B.m_container ≠ [] → (⟨[]⟩ : sorted_set Key).op_lt B = true) ∧
    (∀ A : sorted_set Key, A.op_lt A = false) ∧
    (⟨[1, 2, 3, 4, 5, 8]⟩ : sorted_set Nat).op_lt ⟨[1, 2, 3, 4, 6, 8]⟩ = true ∧
    (sorted_set.of_range [5, 2, 4, 1, 8, 3] : sorted_set Nat).op_lt
      (sorted_set.of_range [6, 2, 4, 1, 8, 3]) = true := by
  refine ⟨fun A B => std_lexicographical_compare_iff_index _ _, fun B hB => ?_, fun A => ?_,
    by decide, by decide⟩
  · rw [op_lt_iff_lex]
    cases hb : B.m_container with
    | nil => exact absurd hb hB
    | cons y ys => exact List.Lex.nil
  · have h : ¬ A.op_lt A = true := by
      rw [op_lt_iff_lex]
      exact irrefl_of (List.Lex (· < ·)) _
    simpa using h

theorem order_is_lexicographic_witness :
    (⟨[]⟩ : sorted_set Nat).op_lt ⟨[7]⟩ = true ∧
    (⟨[1, 2]⟩ : sorted_set Nat).op_lt ⟨[1, 2, 0]⟩ = true ∧
    (⟨[1, 2]⟩ : sorted_set Nat).op_lt ⟨[1, 2]⟩ = false :=
  ⟨(@order_is_lexicographic Nat _).2.1 ⟨[7]⟩ (by decide), by decide,
    (@order_is_lexicographic Nat _).2.2.1 ⟨[1, 2]⟩⟩

/-- C28. The six comparison operators of two sets over a totally ordered element
type are mutually consistent: `A > B` exactly when `B < A`; `A <= B` exactly when
`A < B` or `A == B`; `A >= B` exactly when `A > B` or `A == B`; `A <= B` exactly
when not `A > B`; and `A != B` exactly when not `A == B`. -/
theorem operators_consistent (A B : sorted_set Key) :
    (A.op_gt B = true ↔ B.op_lt A = true) ∧
    (A.op_le B = true ↔ (A.op_lt B = true ∨ A.op_eq B = true)) ∧
    (A.op_ge B = true ↔ (A.op_gt B = true ∨ A.op_eq B = true)) ∧
    (A.op_le B = true ↔ ¬ A.op_gt B = true) ∧
    (A.op_ne B = true ↔ ¬ A.op_eq B = true) := by
  have hgt : A.op_gt B = B.op_lt A := rfl
  have hle : A.op_le B = !(B.op_lt A) := rfl
  have hge : A.op_ge B = !(A.op_lt B) := rfl
  have hne : A.op_ne B = !(A.op_eq B) := rfl
  have hnot : ∀ b : Bool, (!b) = true ↔ ¬ b = true := fun b => by cases b <;> simp
  have htri : List.Lex (· < ·) A.m_container B.m_container ∨ A.m_container = B.m_container ∨
      List.Lex (· < ·) B.m_container A.m_container := trichotomous_of _ _ _
  have hasymm : List.Lex (· < ·) A.m_container B.m_container →
      ¬ List.Lex (· < ·) B.m_container A.m_container := fun h => asymm_of _ h
  have hirr : ∀ l : List Key, ¬ List.Lex (· < ·) l l := fun l => irrefl_of _ l
  refine ⟨by rw [hgt], ?_, ?_, by rw [hle, hgt]; exact hnot _, by rw [hne]; exact hnot _⟩
  · rw [hle, hnot, op_lt_iff_lex, op_lt_iff_lex, op_eq_iff]
    constructor
    · intro h
      rcases htri with h1 | h1 | h1
      · exact Or.inl h1
      · exact Or.inr h1
      · exact absurd h1 h
    · rintro (h1 | h1)
      · exact fun h2 => hasymm h1 h2
      · rw [h1]
        exact hirr _
  · rw [hge, hgt, hnot, op_lt_iff_lex, op_lt_iff_lex, op_eq_iff]
    constructor
    · intro h
      rcases htri with h1 | h1 | h1
      · exact absurd h1 h
      · exact Or.inr h1
      · exact Or.inl h1
    · rintro (h1 | h1)
      · exact fun h2 => hasymm h2 h1
      · rw [h1]
        exact hirr _

/-- C29. The order of sets over a totally ordered element type is one total order:
of `A < B`, `A == B` and `B < A` exactly one holds, and `A < B` with `B < C` gives
`A < C`. -/
theorem order_is_total (A B C : sorted_set Key) :
    ((A.op_lt B = true ∨ A.op_eq B = true ∨ B.op_lt A = true) ∧
      ¬ (A.op_lt B = true ∧ A.op_eq B = true) ∧
      ¬ (A.op_eq B = true ∧ B.op_lt A = true) ∧
      ¬ (A.op_lt B = true ∧ B.op_lt A = true)) ∧
    (A.op_lt B = true → B.op_lt C = true → A.op_lt C = true) := by
  simp only [op_lt_iff_lex, op_eq_iff]
  have hirr : ∀ l : List Key, ¬ List.Lex (· < ·) l l := fun l => irrefl_of _ l
  refine ⟨⟨trichotomous_of (List.Lex (· < ·)) _ _, ?_, ?_, ?_⟩, fun h1 h2 => trans_of _ h1 h2⟩
  · rintro ⟨h1, h2⟩
    rw [h2] at h1
    exact hirr _ h1
  · rintro ⟨h1, h2⟩
    rw [h1] at h2
    exact hirr _ h2
  · rintro ⟨h1, h2⟩
    exact asymm_of _ h1 h2

theorem order_is_total_witness :
    (⟨[1, 2]⟩ : sorted_set Nat).op_lt ⟨[1, 3]⟩ = true ∧
    (⟨[1, 3]⟩ : sorted_set Nat).op_lt ⟨[2]⟩ = true ∧
    (⟨[1, 2]⟩ : sorted_set Nat).op_lt ⟨[2]⟩ = true :=
  ⟨by decide, by decide,
    (order_is_total (⟨[1, 2]⟩ : sorted_set Nat) ⟨[1, 3]⟩ ⟨[2]⟩).2 (by decide) (by decide)⟩

/-- C30 (the code departs from the claim). The overload `insert(pos, value_type&&)`
does not return when the scan meets an element equal to the value: on `[1, 2, 3]`
with the hint at index 2 and the value 2 it goes on to the element 1 and writes a
second 2, leaving `[1, 2, 2, 3]`, while the overload with `const value_type&`
returns the position of the stored 2 and leaves `[1, 2, 3]`. -/
theorem insert_hint_rvalue_second_copy :
    (⟨[1, 2, 3]⟩ : sorted_set Nat).strictly_ascending ∧
    (⟨[1, 2, 3]⟩ : sorted_set Nat).insert_hint_rvalue 2 2 = (⟨[1, 2, 2, 3]⟩, 1) ∧
    (⟨[1, 2, 3]⟩ : sorted_set Nat).insert_hint 2 2 = (⟨[1, 2, 3]⟩, 1) ∧
    ¬ ((⟨[1, 2, 3]⟩ : sorted_set Nat).insert_hint_rvalue 2 2).1.strictly_ascending := by
  decide

end sorted_set

/-! ## The key-only searches and accessors of `sorted_map` -/

section bridge

theorem std_lower_bound_loop_map {α : Type*} {β : Type*} {γ : Type*} (f : α → γ)
    (comp : γ → β → Bool) (v : List α) (val : β) :
    ∀ fuel first len, std_lower_bound_loop (fun a b => comp (f a) b) v val fuel first len
      = std_lower_bound_loop comp (v.map f) val fuel first len := by
  intro fuel
  induction fuel with
  | zero => intro first len; rfl
  | succ fuel ih =>
    intro first len
    simp only [std_lower_bound_loop, List.getElem?_map]
    by_cases hlen : len = 0
    · simp [hlen]
    · simp only [hlen, if_false]
      cases hm : v[first + len / 2]? with
      | none => rfl
      | some m => simp only [Option.map_some', ih]

theorem std_upper_bound_loop_map {α : Type*} {β : Type*} {γ : Type*} (f : α → γ)
    (comp : β → γ → Bool) (v : List α) (val : β) :
    ∀ fuel first len, std_upper_bound_loop (fun b a => comp b (f a)) v val fuel first len
      = std_upper_bound_loop comp (v.map f) val fuel first len := by
  intro fuel
  induction fuel with
  | zero => intro first len; rfl
  | succ fuel ih =>
    intro first len
    simp only [std_upper_bound_loop, List.getElem?_map]
    by_cases hlen : len = 0
    · simp [hlen]
    · simp only [hlen, if_false]
      cases hm : v[first + len / 2]? with
      | none => rfl
      | some m => simp only [Option.map_some', ih]

end bridge

namespace sorted_set

variable {Key : Type u} [LinearOrder Key]

theorem bounds_of_getElem {s : sorted_set Key} (hs : s.strictly_ascending) {k : Key} {j : Nat}
    (hj : s.m_container[j]? = some k) : s.lower_bound k = j ∧ s.upper_bound k = j + 1 := by
  obtain ⟨hjl, hje⟩ := List.getElem?_eq_some.mp hj
  have hl := lower_bound_spec hs k
  have hu := upper_bound_spec hs k
  have h1 : ¬ j < s.lower_bound k := fun h => by
    have := (hl.2 j hjl).mpr h
    rw [hje] at this
    exact lt_irrefl _ this
  have h2 : j < s.upper_bound k := (hu.2 j hjl).mp (by rw [hje])
  have h4 : ¬ s.lower_bound k < j := by
    intro h
    have hlt : s.lower_bound k < s.m_container.length := by omega
    have h5 : ¬ s.m_container[s.lower_bound k] < k := fun hh =>
      absurd ((hl.2 _ hlt).mp hh) (lt_irrefl _)
    have h6 := getElem_lt_getElem hs hlt hjl h
    rw [hje] at h6
    exact h5 h6
  have h5 : ¬ j + 1 < s.upper_bound k := by
    intro h
    have hlt : j + 1 < s.m_container.length := by omega
    have h6 := (hu.2 _ hlt).mpr h
    have h7 := getElem_lt_getElem hs hjl hlt (Nat.lt_succ_self j)
    rw [hje] at h7
    exact absurd h6 (not_le.mpr h7)
  omega

end sorted_set

namespace sorted_map

variable {Key : Type u} {T : Type v} [LinearOrder Key]

theorem lower_bound_eq_keys (m : sorted_map Key T) (k : Key) :
    m.lower_bound k = (⟨m.keys⟩ : sorted_set Key).lower_bound k := by
  simp only [lower_bound, sorted_set.lower_bound, std_lower_bound, keys, List.length_map]
  exact std_lower_bound_loop_map Prod.fst (fun a b => decide (a < b)) m.m_container k _ _ _

theorem upper_bound_eq_keys (m : sorted_map Key T) (k : Key) :
    m.upper_bound k = (⟨m.keys⟩ : sorted_set Key).upper_bound k := by
  simp only [upper_bound, sorted_set.upper_bound, std_upper_bound, keys, List.length_map]
  exact std_upper_bound_loop_map Prod.fst (fun a b => decide (a < b)) m.m_container k _ _ _

theorem find_eq_keys (m : sorted_map Key T) (k : Key) :
    m.find k = (⟨m.keys⟩ : sorted_set Key).find k := by
  have h := lower_bound_eq_keys m k
  simp only [lower_bound, sorted_set.lower_bound] at h
  simp only [find, sorted_set.find, h, cend, sorted_set.cend]
  simp only [keys, List.getElem?_map, List.length_map]
  cases m.m_container[std_lower_bound (fun a b => decide (a < b)) (List.map Prod.fst m.m_container) k]? with
  | none => rfl
  | some x => rfl

theorem keys_set_ascending {m : sorted_map Key T} (hm : m.keys_strictly_ascending) :
    (⟨m.keys⟩ : sorted_set Key).strictly_ascending := hm

omit [LinearOrder Key] in
theorem mem_keys {m : sorted_map Key T} {k : Key} :
    k ∈ m.keys ↔ ∃ t, (k, t) ∈ m.m_container := by
  simp [keys]

/-- With strictly ascending keys an entry is determined by its key. -/
theorem entry_unique {m : sorted_map Key T} (hm : m.keys_strictly_ascending) {k : Key} {i : Nat}
    {x : Key × T} (hi : m.m_container[i]? = some x) (hx : x.1 = k) {t : T}
    (ht : (k, t) ∈ m.m_container) : x = (k, t) := by
  obtain ⟨j, hj, hje⟩ := List.getElem_of_mem ht
  obtain ⟨hil, hie⟩ := List.getElem?_eq_some.mp hi
  have hkl : m.keys.length = m.m_container.length := by simp [keys]
  have e : i = j := by
    apply sorted_set.getElem_inj (keys_set_ascending hm) (by simpa [keys] using hil)
      (by simpa [keys] using hj)
    simp only [keys, List.getElem_map, hie, hje, hx]
  subst e
  rw [← hie, hje]

theorem find_of_key_mem {m : sorted_map Key T} (hm : m.keys_strictly_ascending) {k : Key}
    (hk : k ∈ m.keys) :
    m.find k = m.lower_bound k ∧ m.find k < m.m_container.length ∧
      ∃ x, m.m_container[m.find k]? = some x ∧ x.1 = k := by
  have h1 := sorted_set.find_lt_of_mem (keys_set_ascending hm) hk
  have h2 := sorted_set.find_of_mem (keys_set_ascending hm) hk
  rw [← find_eq_keys, ← lower_bound_eq_keys] at h2
  rw [← find_eq_keys] at h1
  refine ⟨h2, by simpa [keys] using h1.1, ?_⟩
  have h3 := h1.2
  simp only [keys, List.getElem?_map, Option.map_eq_some'] at h3
  obtain ⟨x, hx, hxk⟩ := h3
  exact ⟨x, hx, hxk⟩

theorem find_of_key_not_mem {m : sorted_map Key T} (hm : m.keys_strictly_ascending) {k : Key}
    (hk : k ∉ m.keys) : m.find k = m.cend := by
  have h := sorted_set.find_of_not_mem (keys_set_ascending hm) hk
  rw [← find_eq_keys] at h
  simpa [cend, sorted_set.cend, keys] using h

theorem find_of_entry {m : sorted_map Key T} (hm : m.keys_strictly_ascending) {k : Key} {t : T}
    (ht : (k, t) ∈ m.m_container) :
    m.find k < m.m_container.length ∧ m.m_container[m.find k]? = some (k, t) := by
  obtain ⟨_, h2, x, hx, hxk⟩ := find_of_key_mem hm (mem_keys.mpr ⟨t, ht⟩)
  exact ⟨h2, by rw [hx, entry_unique hm hx hxk ht]⟩

theorem at_key_of_entry {m : sorted_map Key T} (hm : m.keys_strictly_ascending) {k : Key} {t : T}
    (ht : (k, t) ∈ m.m_container) : m.at_key k = Except.ok t := by
  obtain ⟨h1, h2⟩ := find_of_entry hm ht
  unfold at_key
  simp only [cend, h2]
  rw [if_neg (by omega)]

theorem at_key_of_key_not_mem {m : sorted_map Key T} (hm : m.keys_strictly_ascending) {k : Key}
    (hk : k ∉ m.keys) : m.at_key k = Except.error map_error.out_of_range := by
  unfold at_key
  simp only [find_of_key_not_mem hm hk, if_true]

theorem lower_bound_key_spec {m : sorted_map Key T} (hm : m.keys_strictly_ascending) (k : Key) :
    m.lower_bound k ≤ m.m_container.length ∧
      ∀ i (hi : i < m.m_container.length), m.m_container[i].1 < k ↔ i < m.lower_bound k := by
  have h := sorted_set.lower_bound_spec (keys_set_ascending hm) k
  rw [← lower_bound_eq_keys] at h
  simp only [keys, List.length_map, List.getElem_map] at h
  exact h

theorem upper_bound_key_spec {m : sorted_map Key T} (hm : m.keys_strictly_ascending) (k : Key) :
    m.upper_bound k ≤ m.m_container.length ∧
      ∀ i (hi : i < m.m_container.length), m.m_container[i].1 ≤ k ↔ i < m.upper_bound k := by
  have h := sorted_set.upper_bound_spec (keys_set_ascending hm) k
  rw [← upper_bound_eq_keys] at h
  simp only [keys, List.length_map, List.getElem_map] at h
  exact h

theorem bounds_of_entry {m : sorted_map Key T} (hm : m.keys_strictly_ascending) {k : Key} {t : T}
    (ht : (k, t) ∈ m.m_container) :
    m.lower_bound k = m.find k ∧ m.upper_bound k = m.find k + 1 := by
  obtain ⟨_, h2⟩ := find_of_entry hm ht
  have h3 : (⟨m.keys⟩ : sorted_set Key).m_container[m.find k]? = some k := by
    simp [keys, h2]
  have h4 := sorted_set.bounds_of_getElem (keys_set_ascending hm) h3
  rw [← lower_bound_eq_keys, ← upper_bound_eq_keys] at h4
  exact h4

/-- C22. `sorted_map::at`: on a map with strictly ascending keys, `at(k)` throws
`std::out_of_range` exactly when no entry has key `k`, and otherwise returns the
mapped value of the entry with key `k`, which is the entry at `find(k)`.  The
member writes nothing: its embedding `at_key` returns no container. -/
theorem at_correct (m : sorted_map Key T) (k : Key) (hm : m.keys_strictly_ascending) :
    (m.at_key k = Except.error map_error.out_of_range ↔ k ∉ m.keys) ∧
    (∀ t, (k, t) ∈ m.m_container → m.at_key k = Except.ok t) ∧
    (k ∈ m.keys → ∃ t, (k, t) ∈ m.m_container ∧ m.at_key k = Except.ok t) := by
  refine ⟨⟨fun h hk => ?_, at_key_of_key_not_mem hm⟩, fun t ht => at_key_of_entry hm ht,
    fun hk => ?_⟩
  · obtain ⟨t, ht⟩ := mem_keys.mp hk
    rw [at_key_of_entry hm ht] at h
    exact Except.noConfusion h
  · obtain ⟨t, ht⟩ := mem_keys.mp hk
    exact ⟨t, ht, at_key_of_entry hm ht⟩

theorem at_correct_witness :
    (⟨[(1, 101), (2, 202), (4, 404)]⟩ : sorted_map Nat Nat).keys_strictly_ascending ∧
    (⟨[(1, 101), (2, 202), (4, 404)]⟩ : sorted_map Nat Nat).at_key 2 = Except.ok 202 ∧
    (⟨[(1, 101), (2, 202), (4, 404)]⟩ : sorted_map Nat Nat).at_key 3
      = Except.error map_error.out_of_range :=
  ⟨by decide,
    (at_correct ⟨[(1, 101), (2, 202), (4, 404)]⟩ 2 (by decide)).2.1 202 (by decide),
    (at_correct ⟨[(1, 101), (2, 202), (4, 404)]⟩ 3 (by decide)).1.mpr (by decide)⟩

/-- C25. The searches of `sorted_map` go by key only: on a map with strictly
ascending keys, `find(k)` is the position of the entry with key `k`, whatever its
mapped value, and the end sentinel when no entry has that key; `lower_bound(k)` is
the first position whose key is not less than `k`, `upper_bound(k)` the first whose
key is greater than `k`; for a present key `equal_range(k)` is the one-entry range
at `find(k)`.  The three results are the same for two maps with the same keys. -/
theorem searches_by_key (m : sorted_map Key T) (k : Key) (hm : m.keys_strictly_ascending) :
    (∀ t, (k, t) ∈ m.m_container →
      m.find k < m.size ∧ m.m_container[m.find k]? = some (k, t) ∧
      m.equal_range k = (m.find k, m.find k + 1)) ∧
    (k ∉ m.keys → m.find k = m.cend) ∧
    (m.lower_bound k ≤ m.size ∧
      ∀ i (hi : i < m.m_container.length), m.m_container[i].1 < k ↔ i < m.lower_bound k) ∧
    (m.upper_bound k ≤ m.size ∧
      ∀ i (hi : i < m.m_container.length), m.m_container[i].1 ≤ k ↔ i < m.upper_bound k) ∧
    m.equal_range k = (m.lower_bound k, m.upper_bound k) ∧
    (∀ m2 : sorted_map Key T, m2.keys = m.keys →
      m2.find k = m.find k ∧ m2.lower_bound k = m.lower_bound k ∧
        m2.upper_bound k = m.upper_bound k) := by
  refine ⟨fun t ht => ?_, find_of_key_not_mem hm, lower_bound_key_spec hm k,
    upper_bound_key_spec hm k, rfl, fun m2 h2 => ?_⟩
  · obtain ⟨h1, h2⟩ := find_of_entry hm ht
    obtain ⟨h3, h4⟩ := bounds_of_entry hm ht
    exact ⟨h1, h2, by simp only [equal_range, h3, h4]⟩
  · rw [find_eq_keys, find_eq_keys m, lower_bound_eq_keys, lower_bound_eq_keys m,
      upper_bound_eq_keys, upper_bound_eq_keys m, h2]
    exact ⟨rfl, rfl, rfl⟩

theorem searches_by_key_witness :
    (sorted_map.of_range [(5, 505), (2, 202), (4, 404), (1, 101), (8, 808), (3, 303)]
      : sorted_map Nat Nat)
      = ⟨[(1, 101), (2, 202), (3, 303), (4, 404), (5, 505), (8, 808)]⟩ ∧
    (⟨[(1, 101), (2, 202), (3, 303), (4, 404), (5, 505), (8, 808)]⟩
      : sorted_map Nat Nat).find 5 = 4 ∧
    (⟨[(1, 101), (2, 202), (3, 303), (4, 404), (5, 505), (8, 808)]⟩
      : sorted_map Nat Nat).equal_range 5
      = ((⟨[(1, 101), (2, 202), (3, 303), (4, 404), (5, 505), (8, 808)]⟩
          : sorted_map Nat Nat).find 5,
         (⟨[(1, 101), (2, 202), (3, 303), (4, 404), (5, 505), (8, 808)]⟩
          : sorted_map Nat Nat).find 5 + 1) ∧
    (⟨[(1, 101), (2, 202), (3, 303), (4, 404), (5, 505), (8, 808)]⟩
      : sorted_map Nat Nat).m_container[4]? = some (5, 505) ∧
    (⟨[(1, 101), (2, 202), (3, 303), (4, 404), (5, 505), (8, 808)]⟩
      : sorted_map Nat Nat).m_container[5]? = some (8, 808) :=
  ⟨by decide, by decide,
    ((searches_by_key ⟨[(1, 101), (2, 202), (3, 303), (4, 404), (5, 505), (8, 808)]⟩ 5
      (by decide)).1 505 (by decide)).2.2,
    by decide, by decide⟩

end sorted_map

namespace sorted_map

variable {Key : Type u} {T : Type v} [LinearOrder Key] [LT T] [DecidableRel (α := T) (· < ·)]

theorem pair_lt_key_right {x : Key × T} {k : Key} (t : T) (h : x.1 ≠ k) :
    pair_lt x (k, t) = true ↔ x.1 < k := by
  rcases lt_trichotomy x.1 k with h1 | h1 | h1
  · simp [pair_lt, h1]
  · exact absurd h1 h
  · simp [pair_lt, h1, not_lt_of_gt h1]

theorem pair_lt_key_left {x : Key × T} {k : Key} (t : T) (h : x.1 ≠ k) :
    pair_lt (k, t) x = true ↔ k < x.1 := by
  rcases lt_trichotomy x.1 k with h1 | h1 | h1
  · simp [pair_lt, h1, not_lt_of_gt h1]
  · exact absurd h1 h
  · simp [pair_lt, h1]

omit [LinearOrder Key] [LT T] [DecidableRel (α := T) (· < ·)] in
theorem key_ne_of_not_mem {m : sorted_map Key T} {k : Key} (hk : k ∉ m.keys) :
    ∀ i (hi : i < m.m_container.length), m.m_container[i].1 ≠ k := by
  intro i hi h
  apply hk
  rw [← h]
  exact List.mem_map_of_mem _ (List.getElem_mem hi)

/-- The pair comparison of `insert` finds the key lower bound when the key is new. -/
theorem insert_of_key_not_mem {m : sorted_map Key T} (hm : m.keys_strictly_ascending) {k : Key}
    (hk : k ∉ m.keys) (t : T) :
    m.insert (k, t)
      = (⟨vector_insert m.m_container (m.lower_bound k) (k, t)⟩, (m.lower_bound k, true)) := by
  obtain ⟨hle, hp⟩ := lower_bound_key_spec hm k
  have hne := key_ne_of_not_mem hk
  have e : std_lower_bound pair_lt m.m_container (k, t) = m.lower_bound k :=
    std_lower_bound_loop_eq pair_lt m.m_container (k, t) (m.lower_bound k)
      (fun i hi => by rw [pair_lt_key_right t (hne i hi)]; exact hp i hi) _ 0 _ (le_refl _)
      (Nat.zero_le _) (by omega) (by omega)
  unfold insert
  simp only [e]
  cases hx : m.m_container[m.lower_bound k]? with
  | none => rfl
  | some x =>
    obtain ⟨hl, hxe⟩ := List.getElem?_eq_some.mp hx
    have hxk : x.1 ≠ k := hxe ▸ hne _ hl
    have h1 : ¬ x.1 < k := fun h => by
      have := (hp _ hl).mp (hxe ▸ h)
      omega
    have h2 : pair_lt (k, t) x = true :=
      (pair_lt_key_left t hxk).mpr (lt_of_le_of_ne (not_lt.mp h1) (Ne.symm hxk))
    simp [h2]

omit [LinearOrder Key] [LT T] [DecidableRel (α := T) (· < ·)] in
theorem keys_vector_insert (v : List (Key × T)) (p : Nat) (x : Key × T) :
    (⟨vector_insert v p x⟩ : sorted_map Key T).keys = vector_insert (v.map Prod.fst) p x.1 := by
  simp [keys, vector_insert, List.map_take, List.map_drop]

omit [LT T] [DecidableRel (α := T) (· < ·)] in
theorem vector_insert_keys_ascending {m : sorted_map Key T} (hm : m.keys_strictly_ascending)
    {k : Key} (hk : k ∉ m.keys) (t : T) :
    (⟨vector_insert m.m_container (m.lower_bound k) (k, t)⟩
      : sorted_map Key T).keys_strictly_ascending := by
  have h := sorted_set.vector_insert_sorted (keys_set_ascending hm) hk
  rw [← lower_bound_eq_keys] at h
  have e := keys_vector_insert m.m_container (m.lower_bound k) (k, t)
  unfold keys_strictly_ascending
  unfold keys at e
  rw [e]
  exact h

theorem subscript_of_entry [Inhabited T] {m : sorted_map Key T} (hm : m.keys_strictly_ascending)
    {k : Key} {t : T} (ht : (k, t) ∈ m.m_container) : m.subscript k = (m, m.find k) := by
  obtain ⟨h1, _⟩ := find_of_entry hm ht
  unfold subscript
  simp only [cend]
  rw [if_neg (by omega)]

theorem subscript_of_key_not_mem [Inhabited T] {m : sorted_map Key T}
    (hm : m.keys_strictly_ascending) {k : Key} (hk : k ∉ m.keys) :
    m.subscript k
      = (⟨vector_insert m.m_container (m.lower_bound k) (k, default)⟩, m.lower_bound k) := by
  unfold subscript
  simp only [find_of_key_not_mem hm hk, if_true, insert_of_key_not_mem hm hk]

/-- C23. `sorted_map::operator[]`: on a map with strictly ascending keys, for a
present key the call leaves the map as it is and addresses the entry with that
key, so it yields the existing mapped value; for an absent key it writes the entry
`(k, T())` at the key lower bound, keeps every other entry (those before the slot
at their index, those from the slot on one index further), makes the size one
larger, keeps the keys strictly ascending, and yields `T()` from the new slot. -/
theorem subscript_correct [Inhabited T] (m : sorted_map Key T) (k : Key)
    (hm : m.keys_strictly_ascending) :
    (∀ t, (k, t) ∈ m.m_container →
      m.subscript k = (m, m.find k) ∧ m.m_container[m.find k]? = some (k, t) ∧
        m.subscript_read k = some t) ∧
    (k ∉ m.keys →
      (m.subscript k).2 = m.lower_bound k ∧
      m.lower_bound k ≤ m.size ∧
      (∀ i (hi : i < m.m_container.length), m.m_container[i].1 < k ↔ i < m.lower_bound k) ∧
      (m.subscript k).1.m_container
        = m.m_container.take (m.lower_bound k) ++ (k, default) ::
            m.m_container.drop (m.lower_bound k) ∧
      (∀ i, i < m.lower_bound k → (m.subscript k).1.m_container[i]? = m.m_container[i]?) ∧
      (m.subscript k).1.m_container[m.lower_bound k]? = some (k, default) ∧
      (∀ i, m.lower_bound k ≤ i →
        (m.subscript k).1.m_container[i + 1]? = m.m_container[i]?) ∧
      (m.subscript k).1.size = m.size + 1 ∧
      (m.subscript k).1.keys_strictly_ascending ∧
      m.subscript_read k = some default) := by
  refine ⟨fun t ht => ?_, fun hk => ?_⟩
  · obtain ⟨_, h2⟩ := find_of_entry hm ht
    refine ⟨subscript_of_entry hm ht, h2, ?_⟩
    simp only [subscript_read, subscript_of_entry hm ht, h2, Option.map_some']
  · obtain ⟨hle, hp⟩ := lower_bound_key_spec hm k
    have e := subscript_of_key_not_mem hm hk
    refine ⟨by rw [e], hle, hp, by rw [e]; rfl, fun i hi => ?_, ?_, fun i hi => ?_, ?_, ?_, ?_⟩
    · rw [e]
      exact sorted_set.getElem?_vector_insert_lt _ _ hi hle
    · rw [e]
      exact sorted_set.getElem?_vector_insert_self _ _ hle
    · rw [e]
      exact sorted_set.getElem?_vector_insert_gt _ _ hi hle
    · rw [e]
      exact sorted_set.length_vector_insert _ _ _
    · rw [e]
      exact vector_insert_keys_ascending hm hk default
    · simp only [subscript_read, e, sorted_set.getElem?_vector_insert_self _ _ hle,
        Option.map_some']

theorem subscript_correct_witness :
    (⟨[(1, 101), (2, 202), (4, 404)]⟩ : sorted_map Nat Nat).keys_strictly_ascending ∧
    (⟨[(1, 101), (2, 202), (4, 404)]⟩ : sorted_map Nat Nat).subscript 2
      = (⟨[(1, 101), (2, 202), (4, 404)]⟩,
          (⟨[(1, 101), (2, 202), (4, 404)]⟩ : sorted_map Nat Nat).find 2) ∧
    (⟨[(1, 101), (2, 202), (4, 404)]⟩ : sorted_map Nat Nat).subscript_read 2 = some 202 ∧
    (⟨[(1, 101), (2, 202), (4, 404)]⟩ : sorted_map Nat Nat).subscript 3
      = (⟨[(1, 101), (2, 202), (3, 0), (4, 404)]⟩, 2) ∧
    (⟨[(1, 101), (2, 202), (4, 404)]⟩ : sorted_map Nat Nat).subscript_read 3 = some default :=
  ⟨by decide,
    ((subscript_correct ⟨[(1, 101), (2, 202), (4, 404)]⟩ 2 (by decide)).1 202 (by decide)).1,
    by decide, by decide,
    ((subscript_correct ⟨[(1, 101), (2, 202), (4, 404)]⟩ 3 (by decide)).2
      (by decide)).2.2.2.2.2.2.2.2.2⟩

omit [LinearOrder Key] [LT T] [DecidableRel (α := T) (· < ·)] in
theorem map_fst_set_same_key (v : List (Key × T)) (i : Nat) (x y : Key × T)
    (h : v[i]? = some x) (hxy : y.1 = x.1) :
    (v.set i y).map Prod.fst = v.map Prod.fst := by
  apply List.ext_getElem?
  intro n
  simp only [List.getElem?_map, List.getElem?_set]
  by_cases hn : i = n
  · subst hn
    simp [h, hxy, (List.getElem?_eq_some.mp h).1]
  · simp [hn]

omit [LinearOrder Key] [LT T] [DecidableRel (α := T) (· < ·)] in
theorem vector_insert_set (v : List (Key × T)) (p : Nat) (x y : Key × T) (hp : p ≤ v.length) :
    (vector_insert v p x).set p y = vector_insert v p y := by
  apply List.ext_getElem?
  intro n
  rw [List.getElem?_set]
  rcases Nat.lt_trichotomy n p with h | h | h
  · rw [if_neg (by omega), sorted_set.getElem?_vector_insert_lt _ _ h hp,
      sorted_set.getElem?_vector_insert_lt _ _ h hp]
  · subst h
    rw [if_pos rfl, sorted_set.getElem?_vector_insert_self _ _ hp,
      if_pos (by rw [sorted_set.length_vector_insert]; omega)]
  · obtain ⟨j, rfl⟩ : ∃ j, n = j + 1 := ⟨n - 1, by omega⟩
    rw [if_neg (by omega), sorted_set.getElem?_vector_insert_gt _ _ (by omega) hp,
      sorted_set.getElem?_vector_insert_gt _ _ (by omega) hp]

/-- The container that the statement `m[k] = v` leaves, in the two cases. -/
theorem subscript_assign_cases [Inhabited T] {m : sorted_map Key T}
    (hm : m.keys_strictly_ascending) (k : Key) (v : T) :
    (∃ t, (k, t) ∈ m.m_container ∧ m.m_container[m.find k]? = some (k, t) ∧
      m.subscript_assign k v = ⟨m.m_container.set (m.find k) (k, v)⟩) ∨
    (k ∉ m.keys ∧
      m.subscript_assign k v = ⟨vector_insert m.m_container (m.lower_bound k) (k, v)⟩) := by
  by_cases hk : k ∈ m.keys
  · left
    obtain ⟨t, ht⟩ := mem_keys.mp hk
    obtain ⟨_, h2⟩ := find_of_entry hm ht
    refine ⟨t, ht, h2, ?_⟩
    simp only [subscript_assign, subscript_of_entry hm ht, h2]
  · right
    obtain ⟨hle, _⟩ := lower_bound_key_spec hm k
    refine ⟨hk, ?_⟩
    simp only [subscript_assign, subscript_of_key_not_mem hm hk,
      sorted_set.getElem?_vector_insert_self _ _ hle, vector_insert_set _ _ _ _ hle]

/-- What the statement `m[k] = v` does to the entries: the keys stay strictly
ascending, the entry `(k, v)` is stored, and the entries with another key are those
of before. -/
theorem subscript_assign_entries [Inhabited T] {m : sorted_map Key T}
    (hm : m.keys_strictly_ascending) (k : Key) (v : T) :
    (m.subscript_assign k v).keys_strictly_ascending ∧
    (k, v) ∈ (m.subscript_assign k v).m_container ∧
    ∀ j t, j ≠ k → ((j, t) ∈ (m.subscript_assign k v).m_container ↔ (j, t) ∈ m.m_container) := by
  rcases subscript_assign_cases hm k v with ⟨t0, _, h2, e⟩ | ⟨hk, e⟩
  · rw [e]
    obtain ⟨hl, hle⟩ := List.getElem?_eq_some.mp h2
    refine ⟨?_, ?_, fun j t hj => ?_⟩
    · show ((m.m_container.set (m.find k) (k, v)).map Prod.fst).Pairwise (· < ·)
      rw [map_fst_set_same_key _ _ _ (k, v) h2 rfl]
      exact hm
    · exact List.mem_iff_getElem?.mpr ⟨m.find k, by simp [List.getElem?_set, hl]⟩
    · simp only [List.mem_iff_getElem?, List.getElem?_set]
      constructor
      · rintro ⟨n, hn⟩
        by_cases hi : m.find k = n
        · rw [if_pos hi, if_pos hl] at hn
          exact absurd (congrArg Prod.fst (Option.some.inj hn)).symm hj
        · rw [if_neg hi] at hn
          exact ⟨n, hn⟩
      · rintro ⟨n, hn⟩
        refine ⟨n, ?_⟩
        by_cases hi : m.find k = n
        · rw [← hi, h2] at hn
          exact absurd (congrArg Prod.fst (Option.some.inj hn)).symm hj
        · rw [if_neg hi]
          exact hn
  · rw [e]
    refine ⟨vector_insert_keys_ascending hm hk v, ?_, fun j t hj => ?_⟩
    · exact (mem_vector_insert _ _ _ _).mpr (Or.inl rfl)
    · show (j, t) ∈ vector_insert m.m_container (m.lower_bound k) (k, v) ↔ _
      rw [mem_vector_insert]
      constructor
      · rintro (h | h)
        · exact absurd (congrArg Prod.fst h) hj
        · exact h
      · exact Or.inr

/-- C24. Indexed assignment, then read: on a map with strictly ascending keys,
after `m[k] = v` the call `at(k)` returns `v`, whether `k` was present before or
not; for every other key `j` the call `at(j)` gives what it gave before (the same
mapped value, or the same exception); no key other than `k` is added or removed;
`k` is a key afterwards and the keys are still strictly ascending. -/
theorem subscript_assign_then_at [Inhabited T] (m : sorted_map Key T) (k : Key) (v : T)
    (hm : m.keys_strictly_ascending) :
    (m.subscript_assign k v).at_key k = Except.ok v ∧
    (∀ j, j ≠ k → (m.subscript_assign k v).at_key j = m.at_key j) ∧
    (∀ j, j ≠ k → (j ∈ (m.subscript_assign k v).keys ↔ j ∈ m.keys)) ∧
    k ∈ (m.subscript_assign k v).keys ∧
    (m.subscript_assign k v).keys_strictly_ascending := by
  obtain ⟨h1, h2, h3⟩ := subscript_assign_entries hm k v
  have hkeys : ∀ j, j ≠ k → (j ∈ (m.subscript_assign k v).keys ↔ j ∈ m.keys) := by
    intro j hj
    rw [mem_keys, mem_keys]
    exact ⟨fun ⟨t, ht⟩ => ⟨t, (h3 j t hj).mp ht⟩, fun ⟨t, ht⟩ => ⟨t, (h3 j t hj).mpr ht⟩⟩
  refine ⟨at_key_of_entry h1 h2, fun j hj => ?_, hkeys, mem_keys.mpr ⟨v, h2⟩, h1⟩
  by_cases hjm : j ∈ m.keys
  · obtain ⟨t, ht⟩ := mem_keys.mp hjm
    rw [at_key_of_entry hm ht, at_key_of_entry h1 ((h3 j t hj).mpr ht)]
  · rw [at_key_of_key_not_mem hm hjm,
      at_key_of_key_not_mem h1 (fun h => hjm ((hkeys j hj).mp h))]

theorem subscript_assign_then_at_witness :
    (sorted_map.of_range [("zero", 0), ("one", 1), ("two", 2), ("three", 3)]
      : sorted_map String Nat) = ⟨[("one", 1), ("three", 3), ("two", 2), ("zero", 0)]⟩ ∧
    (⟨[("one", 1), ("three", 3), ("two", 2), ("zero", 0)]⟩
      : sorted_map String Nat).keys_strictly_ascending ∧
    (⟨[("one", 1), ("three", 3), ("two", 2), ("zero", 0)]⟩
      : sorted_map String Nat).subscript_read "four" = some 0 ∧
    ((⟨[("one", 1), ("three", 3), ("two", 2), ("zero", 0)]⟩
      : sorted_map String Nat).subscript_assign "four" 4).at_key "four" = Except.ok 4 ∧
    ((⟨[("one", 1), ("three", 3), ("two", 2), ("zero", 0)]⟩
      : sorted_map String Nat).subscript_assign "four" 4).at_key "three" = Except.ok 3 := by
  have h := subscript_assign_then_at
    (⟨[("one", 1), ("three", 3), ("two", 2), ("zero", 0)]⟩ : sorted_map String Nat) "four" 4
    (by decide!)
  refine ⟨by decide!, by decide!, by decide!, ?_, by decide!⟩
  convert h.1

end sorted_map

/-! ## The order that the mutators of `sorted_map` keep -/

namespace sorted_map

variable {Key : Type u} {T : Type v} [LinearOrder Key] [LinearOrder T]

/-- The `operator<` of `std::pair` is the lexicographic order of the two components. -/
theorem pair_lt_iff (x y : Key × T) :
    pair_lt x y = true ↔ x.1 < y.1 ∨ (x.1 = y.1 ∧ x.2 < y.2) := by
  rcases lt_trichotomy x.1 y.1 with h | h | h
  · simp [pair_lt, h]
  · simp [pair_lt, h]
  · simp [pair_lt, h, not_lt_of_gt h, ne_of_gt h]

theorem pair_lt_iff_lex (x y : Key × T) : pair_lt x y = true ↔ toLex x < toLex y := by
  rw [pair_lt_iff, Prod.Lex.lt_iff]

theorem pair_lt_trans {a b c : Key × T} (h1 : pair_lt a b = true) (h2 : pair_lt b c = true) :
    pair_lt a c = true := by
  rw [pair_lt_iff_lex] at *
  exact lt_trans h1 h2

theorem pair_lt_trichotomy (a b : Key × T) :
    pair_lt a b = true ∨ a = b ∨ pair_lt b a = true := by
  rw [pair_lt_iff_lex, pair_lt_iff_lex]
  rcases lt_trichotomy (toLex a) (toLex b) with h | h | h
  · exact Or.inl h
  · exact Or.inr (Or.inl (toLex.injective h))
  · exact Or.inr (Or.inr h)

theorem pair_lt_key_le {a b : Key × T} (h : pair_lt a b = true) : a.1 ≤ b.1 := by
  rcases (pair_lt_iff a b).mp h with h1 | h1
  · exact le_of_lt h1
  · exact le_of_eq h1.1

theorem vector_insert_entries {m : sorted_map Key T} (hm : m.entries_strictly_ascending)
    (x : Key × T)
    (hx : ∀ y, m.m_container[std_lower_bound pair_lt m.m_container x]? = some y →
      pair_lt x y = true) :
    (vector_insert m.m_container (std_lower_bound pair_lt m.m_container x) x).Pairwise
      (fun a b => pair_lt a b = true) := by
  obtain ⟨hle, hp⟩ := std_lower_bound_spec pair_lt m.m_container x
    (hm.imp (fun {a b} hab hb => pair_lt_trans hab hb))
  generalize std_lower_bound pair_lt m.m_container x = n at hx hle hp
  have hlow : ∀ a ∈ m.m_container.take n, pair_lt a x = true := by
    intro a ha
    obtain ⟨i, hi, rfl⟩ := List.mem_take_iff_getElem.mp ha
    have hi2 : i < m.m_container.length := by omega
    exact (hp i hi2).mpr (by omega)
  have hhigh : ∀ b ∈ m.m_container.drop n, pair_lt x b = true := by
    intro b hb
    obtain ⟨i, hi, rfl⟩ := List.mem_drop_iff_getElem.mp hb
    have hi2 : n + i < m.m_container.length := by omega
    have hn : n < m.m_container.length := by omega
    have h0 : pair_lt x m.m_container[n] = true := hx _ (List.getElem?_eq_getElem hn)
    rcases Nat.eq_zero_or_pos i with h | h
    · subst h
      exact h0
    · exact pair_lt_trans h0 ((List.pairwise_iff_getElem.mp hm) n (n + i) hn hi2 (by omega))
  unfold vector_insert
  rw [List.pairwise_append]
  refine ⟨hm.sublist (List.take_sublist _ _), ?_, ?_⟩
  · rw [List.pairwise_cons]
    exact ⟨hhigh, hm.sublist (List.drop_sublist _ _)⟩
  · intro a ha b hb
    rcases List.mem_cons.mp hb with rfl | hb
    · exact hlow a ha
    · exact pair_lt_trans (hlow a ha) (hhigh b hb)

theorem insert_entries_strictly_ascending {m : sorted_map Key T}
    (hm : m.entries_strictly_ascending) (x : Key × T) :
    (m.insert x).1.entries_strictly_ascending := by
  unfold insert
  simp only []
  cases hy : m.m_container[std_lower_bound pair_lt m.m_container x]? with
  | none =>
    exact vector_insert_entries hm x (fun y h => by rw [hy] at h; exact Option.noConfusion h)
  | some y =>
    by_cases hc : pair_lt x y = true
    · simp only [hc, not_true_eq_false, if_false]
      exact vector_insert_entries hm x (fun z h => by
        rw [hy] at h
        exact Option.some.inj h ▸ hc)
    · simp only [hc, not_false_eq_true, if_true]
      exact hm

theorem emplace_eq_insert_map (m : sorted_map Key T) (x : Key × T) : m.emplace x = m.insert x :=
  rfl

theorem insert_range_entries_strictly_ascending (source : List (Key × T)) :
    ∀ {m : sorted_map Key T}, m.entries_strictly_ascending →
      (m.insert_range source).entries_strictly_ascending := by
  induction source with
  | nil => intro m hm; exact hm
  | cons x rest ih => intro m hm; exact ih (insert_entries_strictly_ascending hm x)

theorem erase_key_entries_strictly_ascending {m : sorted_map Key T}
    (hm : m.entries_strictly_ascending) (k : Key) :
    (m.erase_key k).1.entries_strictly_ascending := by
  unfold erase_key
  simp only []
  split
  · exact hm
  · exact hm.sublist (List.eraseIdx_sublist _ _)

theorem apply_entries_strictly_ascending {m t : sorted_map Key T}
    (hm : m.entries_strictly_ascending) (op : MapOp Key T) (h : MapOp.apply m op = some t) :
    t.entries_strictly_ascending := by
  cases op with
  | insert value =>
    simp only [MapOp.apply, Option.some.injEq] at h
    exact h ▸ insert_entries_strictly_ascending hm value
  | insert_range source =>
    simp only [MapOp.apply, Option.some.injEq] at h
    exact h ▸ insert_range_entries_strictly_ascending source hm
  | emplace value =>
    simp only [MapOp.apply, Option.some.injEq] at h
    exact h ▸ insert_entries_strictly_ascending hm value
  | erase_key key =>
    simp only [MapOp.apply, Option.some.injEq] at h
    exact h ▸ erase_key_entries_strictly_ascending hm key
  | erase pos =>
    simp only [MapOp.apply] at h
    split at h
    · simp only [Option.some.injEq] at h
      exact h ▸ hm.sublist (List.eraseIdx_sublist _ _)
    · exact absurd h (by simp)
  | erase_range first last =>
    simp only [MapOp.apply] at h
    split at h
    · rename_i hr
      simp only [Option.some.injEq] at h
      exact h ▸ hm.sublist (sorted_set.vector_erase_range_sublist _ hr.1)
    · exact absurd h (by simp)

theorem run_entries_strictly_ascending (ops : List (MapOp Key T)) :
    ∀ {m t : sorted_map Key T}, m.entries_strictly_ascending → run_map_ops m ops = some t →
      t.entries_strictly_ascending := by
  induction ops with
  | nil =>
    intro m t hm h
    simp only [run_map_ops, Option.some.injEq] at h
    exact h ▸ hm
  | cons op rest ih =>
    intro m t hm h
    simp only [run_map_ops] at h
    cases hop : MapOp.apply m op with
    | none => rw [hop] at h; exact absurd h (by simp)
    | some u =>
      rw [hop] at h
      exact ih (apply_entries_strictly_ascending hm op hop) h

theorem keys_nondecreasing {m : sorted_map Key T} (hm : m.entries_strictly_ascending) :
    m.keys.Pairwise (· ≤ ·) := by
  unfold keys
  rw [List.pairwise_map]
  exact hm.imp (fun {a b} h => pair_lt_key_le h)

omit [LinearOrder T] in
theorem bounds_of_keys_nondecreasing {m : sorted_map Key T} (hk : m.keys.Pairwise (· ≤ ·))
    (k : Key) :
    (m.lower_bound k ≤ m.size ∧
      ∀ i (hi : i < m.m_container.length), m.m_container[i].1 < k ↔ i < m.lower_bound k) ∧
    (m.upper_bound k ≤ m.size ∧
      ∀ i (hi : i < m.m_container.length), m.m_container[i].1 ≤ k ↔ i < m.upper_bound k) := by
  unfold keys at hk
  rw [List.pairwise_map] at hk
  have h1 := std_lower_bound_spec (fun (vt : Key × T) (k : Key) => decide (vt.1 < k))
    m.m_container k (hk.imp (fun {a b} hab hb => by
      simp only [decide_eq_true_eq] at *
      exact lt_of_le_of_lt hab hb))
  have h2 := std_upper_bound_spec (fun (k : Key) (vt : Key × T) => decide (k < vt.1))
    m.m_container k (hk.imp (fun {a b} hab hb => by
      simp only [decide_eq_false_iff_not, not_lt] at *
      exact le_trans hab hb))
  refine ⟨⟨h1.1, fun i hi => ?_⟩, ⟨h2.1, fun i hi => ?_⟩⟩
  · have h := h1.2 i hi
    simp only [decide_eq_true_eq] at h
    exact h
  · have h := h2.2 i hi
    simp only [decide_eq_false_iff_not, not_lt] at h
    exact h

/-- C31. What the hint-free mutators of `sorted_map` keep: after any sequence of
`insert(value)`, `insert(range)`, `emplace` and `erase` calls on an empty map, the
stored entries are strictly ascending for the `operator<` of `std::pair`, which is
the lexicographic order on (key, mapped value); hence the keys are non-decreasing,
and for every key the sequence is partitioned for the key-only tests, with
`lower_bound` and `upper_bound` at the partition points and `find` at the lower
bound or at the end. -/
theorem entries_invariant (ops : List (MapOp Key T)) (m : sorted_map Key T)
    (h : run_map_ops (⟨[]⟩ : sorted_map Key T) ops = some m) :
    m.entries_strictly_ascending ∧
    (∀ a b : Key × T, pair_lt a b = true ↔ a.1 < b.1 ∨ (a.1 = b.1 ∧ a.2 < b.2)) ∧
    m.keys.Pairwise (· ≤ ·) ∧
    (∀ k : Key,
      (m.lower_bound k ≤ m.size ∧
        ∀ i (hi : i < m.m_container.length), m.m_container[i].1 < k ↔ i < m.lower_bound k) ∧
      (m.upper_bound k ≤ m.size ∧
        ∀ i (hi : i < m.m_container.length), m.m_container[i].1 ≤ k ↔ i < m.upper_bound k) ∧
      (m.find k = m.lower_bound k ∨ m.find k = m.cend)) := by
  have hm : m.entries_strictly_ascending :=
    run_entries_strictly_ascending ops (m := ⟨[]⟩) List.Pairwise.nil h
  refine ⟨hm, pair_lt_iff, keys_nondecreasing hm, fun k => ?_⟩
  obtain ⟨h1, h2⟩ := bounds_of_keys_nondecreasing (keys_nondecreasing hm) k
  refine ⟨h1, h2, ?_⟩
  unfold find lower_bound
  simp only []
  split
  · split
    · exact Or.inl rfl
    · exact Or.inr rfl
  · exact Or.inr rfl

theorem entries_invariant_witness :
    run_map_ops (⟨[]⟩ : sorted_map Nat Nat)
        [.insert (2, 202), .insert (1, 101), .insert (1, 202), .insert_range [(4, 404), (3, 303)],
          .emplace (3, 300), .erase_key 2, .erase 0, .erase_range 1 2]
      = some ⟨[(1, 202), (3, 303), (4, 404)]⟩ ∧
    (⟨[(1, 202), (3, 303), (4, 404)]⟩ : sorted_map Nat Nat).entries_strictly_ascending ∧
    run_map_ops (⟨[]⟩ : sorted_map Nat Nat) [.insert (1, 202), .insert (1, 101)]
      = some ⟨[(1, 101), (1, 202)]⟩ ∧
    (⟨[(1, 101), (1, 202)]⟩ : sorted_map Nat Nat).keys.Pairwise (· ≤ ·) :=
  ⟨by decide,
    (entries_invariant
      [.insert (2, 202), .insert (1, 101), .insert (1, 202), .insert_range [(4, 404), (3, 303)],
        .emplace (3, 300), .erase_key 2, .erase 0, .erase_range 1 2]
      ⟨[(1, 202), (3, 303), (4, 404)]⟩ (by decide)).1,
    by decide,
    (entries_invariant [.insert (1, 202), .insert (1, 101)] ⟨[(1, 101), (1, 202)]⟩
      (by decide)).2.2.1⟩

end sorted_map

/-! ## Construction, round trips and the hinted scan of `sorted_set` -/

namespace sorted_set

variable {Key : Type u} [LinearOrder Key]

/-- Two strictly ascending containers with the same members are the same container. -/
theorem eq_of_mem_iff {s t : sorted_set Key} (hs : s.strictly_ascending)
    (ht : t.strictly_ascending) (h : ∀ x, x ∈ s.m_container ↔ x ∈ t.m_container) : s = t := by
  have hp : s.m_container.Perm t.m_container :=
    (List.perm_ext_iff_of_nodup (nodup_of_strictly_ascending hs)
      (nodup_of_strictly_ascending ht)).mpr h
  have e : s.m_container = t.m_container := List.eq_of_perm_of_sorted hp hs ht
  cases s
  cases t
  simp only at e
  rw [e]

theorem of_range_strictly_ascending (source : List Key) :
    (of_range source : sorted_set Key).strictly_ascending :=
  insert_range_strictly_ascending source (s := ⟨[]⟩) List.Pairwise.nil

theorem mem_of_range (source : List Key) (x : Key) :
    x ∈ (of_range source : sorted_set Key).m_container ↔ x ∈ source := by
  have h := mem_insert_range source (s := ⟨[]⟩) List.Pairwise.nil x
  simpa using h

theorem mem_erase_key {s : sorted_set Key} (hs : s.strictly_ascending) (v x : Key) :
    x ∈ (s.erase_key v).1.m_container ↔ x ∈ s.m_container ∧ x ≠ v := by
  by_cases hv : v ∈ s.m_container
  · rw [erase_key_of_mem hs hv]
    simp
  · rw [erase_key_of_not_mem hs hv]
    exact ⟨fun h => ⟨h, fun e => hv (e ▸ h)⟩, fun h => h.1⟩

/-- C32. Construction does not depend on the order or the repetitions of the
source: two source lists with the same members give the same container, with the
same stored sequence, and `operator==` holds between them; and on a strictly
ascending container (the empty one included) `insert(a)` then `insert(b)` leaves
the container that `insert(b)` then `insert(a)` leaves. -/
theorem construction_order_independent (l1 l2 : List Key) (h : ∀ x, x ∈ l1 ↔ x ∈ l2) :
    (of_range l1 : sorted_set Key) = of_range l2 ∧
    (of_range l1 : sorted_set Key).m_container = (of_range l2 : sorted_set Key).m_container ∧
    (of_range l1 : sorted_set Key).op_eq (of_range l2) = true ∧
    (∀ (s : sorted_set Key) (a b : Key), s.strictly_ascending →
      ((s.insert a).1.insert b).1 = ((s.insert b).1.insert a).1) := by
  have e : (of_range l1 : sorted_set Key) = of_range l2 :=
    eq_of_mem_iff (of_range_strictly_ascending l1) (of_range_strictly_ascending l2)
      (fun x => by rw [mem_of_range, mem_of_range]; exact h x)
  refine ⟨e, by rw [e], by rw [e, op_eq_iff], fun s a b hs => ?_⟩
  have ha := insert_strictly_ascending hs a
  have hb := insert_strictly_ascending hs b
  apply eq_of_mem_iff (insert_strictly_ascending ha b) (insert_strictly_ascending hb a)
  intro x
  rw [mem_insert ha, mem_insert hs, mem_insert hb, mem_insert hs]
  tauto

theorem construction_order_independent_witness :
    (sorted_set.of_range [5, 2, 4, 1, 8, 3] : sorted_set Nat) = ⟨[1, 2, 3, 4, 5, 8]⟩ ∧
    (sorted_set.of_range [3, 8, 8, 1, 4, 2, 5, 5, 3] : sorted_set Nat) = ⟨[1, 2, 3, 4, 5, 8]⟩ ∧
    (sorted_set.of_range [5, 2, 4, 1, 8, 3] : sorted_set Nat).op_eq
      (sorted_set.of_range [3, 8, 8, 1, 4, 2, 5, 5, 3]) = true ∧
    (((⟨[]⟩ : sorted_set Nat).insert 7).1.insert 2).1
      = (((⟨[]⟩ : sorted_set Nat).insert 2).1.insert 7).1 :=
  ⟨by decide, by decide,
    (construction_order_independent [5, 2, 4, 1, 8, 3] [3, 8, 8, 1, 4, 2, 5, 5, 3]
      (fun x => by simp only [List.mem_cons, List.not_mem_nil, or_false]; omega)).2.2.1,
    (construction_order_independent ([] : List Nat) [] (fun _ => Iff.rfl)).2.2.2 ⟨[]⟩ 7 2
      (by decide)⟩

/-- C33. Round trip of `insert` and `erase(key)` on a strictly ascending set: for a
value that is not stored, `insert(v)` and then `erase(v)` removes one element and
leaves the set as it was; for a stored value, `erase(v)` removes one element and
`insert(v)` then reports an insertion, addresses `v`, and leaves the set as it
was. -/
theorem insert_erase_round_trip (s : sorted_set Key) (v : Key) (hs : s.strictly_ascending) :
    (v ∉ s.m_container → (s.insert v).1.erase_key v = (s, 1)) ∧
    (v ∈ s.m_container →
      (s.erase_key v).2 = 1 ∧
      ((s.erase_key v).1.insert v).1 = s ∧
      ((s.erase_key v).1.insert v).2.2 = true ∧
      s.m_container[((s.erase_key v).1.insert v).2.1]? = some v) := by
  refine ⟨fun hv => ?_, fun hv => ?_⟩
  · have h1 := insert_strictly_ascending hs v
    have hv1 : v ∈ (s.insert v).1.m_container := (mem_insert hs v v).mpr (Or.inl rfl)
    have e1 : ((s.insert v).1.erase_key v).2 = 1 := by rw [erase_key_of_mem h1 hv1]
    have e2 : ((s.insert v).1.erase_key v).1 = s := by
      apply eq_of_mem_iff (erase_key_strictly_ascending h1 v) hs
      intro x
      rw [mem_erase_key h1, mem_insert hs]
      constructor
      · rintro ⟨h | h, hne⟩
        · exact absurd h hne
        · exact h
      · exact fun h => ⟨Or.inr h, fun e => hv (e ▸ h)⟩
    exact Prod.ext e2 e1
  · have h2 := erase_key_strictly_ascending hs v
    have hv2 : v ∉ (s.erase_key v).1.m_container := fun h => ((mem_erase_key hs v v).mp h).2 rfl
    have e1 : ((s.erase_key v).1.insert v).1 = s := by
      apply eq_of_mem_iff (insert_strictly_ascending h2 v) hs
      intro x
      rw [mem_insert h2, mem_erase_key hs]
      constructor
      · rintro (h | h)
        · exact h ▸ hv
        · exact h.1
      · intro h
        by_cases hx : x = v
        · exact Or.inl hx
        · exact Or.inr ⟨h, hx⟩
    refine ⟨by rw [erase_key_of_mem hs hv], e1, by rw [insert_of_not_mem h2 hv2], ?_⟩
    have h3 := insert_get h2 v
    rw [e1] at h3
    exact h3

theorem insert_erase_round_trip_witness :
    ((⟨[1, 3, 5]⟩ : sorted_set Nat).insert 4).1 = ⟨[1, 3, 4, 5]⟩ ∧
    ((⟨[1, 3, 5]⟩ : sorted_set Nat).insert 4).1.erase_key 4 = (⟨[1, 3, 5]⟩, 1) ∧
    ((⟨[1, 3, 5]⟩ : sorted_set Nat).erase_key 3).1 = ⟨[1, 5]⟩ ∧
    (((⟨[1, 3, 5]⟩ : sorted_set Nat).erase_key 3).1.insert 3).1 = ⟨[1, 3, 5]⟩ :=
  ⟨by decide,
    (insert_erase_round_trip ⟨[1, 3, 5]⟩ 4 (by decide)).1 (by decide),
    by decide,
    ((insert_erase_round_trip ⟨[1, 3, 5]⟩ 3 (by decide)).2 (by decide)).2.1⟩

theorem insert_hint_scan_traced_fst (s : sorted_set Key) (v : Key) :
    ∀ n, (insert_hint_scan_traced s v n).1 = insert_hint_scan s v n := by
  intro n
  induction n with
  | zero => rfl
  | succ n ih =>
    simp only [insert_hint_scan_traced, insert_hint_scan]
    cases s.m_container[n]? with
    | none => rfl
    | some x =>
      simp only []
      by_cases h1 : x = v
      · simp [h1]
      · by_cases h2 : x < v
        · simp [h1, h2]
        · simp [h1, h2, ih]

theorem emplace_hint_scan_traced_eq (s : sorted_set Key) (v : Key) :
    ∀ n, emplace_hint_scan_traced s v n = insert_hint_scan_traced s v n := by
  intro n
  induction n with
  | zero => rfl
  | succ n ih =>
    simp only [emplace_hint_scan_traced, insert_hint_scan_traced, ih]

theorem insert_hint_scan_traced_prefix (s : sorted_set Key) (v : Key) :
    ∀ n, (insert_hint_scan_traced s v n).2 <+: (List.range n).reverse := by
  intro n
  induction n with
  | zero => simp [insert_hint_scan_traced]
  | succ n ih =>
    rw [List.range_succ, List.reverse_append, List.reverse_singleton, List.singleton_append]
    simp only [insert_hint_scan_traced]
    cases s.m_container[n]? with
    | none => simp [List.prefix_cons_iff]
    | some x =>
      simp only []
      by_cases h1 : x = v
      · simp [h1, List.prefix_cons_iff]
      · by_cases h2 : x < v
        · simp [h1, h2, List.prefix_cons_iff]
        · simp only [h1, h2, if_false]
          exact (List.prefix_cons_inj n).mpr ih

/-- C34. The backward scan of the hinted `insert` and of `emplace_hint` stays in
bounds and ends: for a hint `p` with `p ≤ size`, the scan reads slots in the order
`p - 1, p - 2, ...` (its reads are a prefix of that sequence down to `0`), every
read is at an index below `p` that addresses an element, there are at most `p`
reads, and the container and iterator it returns are those of the member function;
`emplace_hint` makes the same reads.  With `p = 0` (the empty set included) there
is no read and the call is `insert(value).first`, for `emplace_hint`
`emplace(value).first`. -/
theorem hinted_scan_in_bounds (s : sorted_set Key) (p : Nat) (v : Key) (hp : p ≤ s.size) :
    (insert_hint_scan_traced s v p).1 = s.insert_hint p v ∧
    (emplace_hint_scan_traced s v p).1 = s.emplace_hint p v ∧
    (emplace_hint_scan_traced s v p).2 = (insert_hint_scan_traced s v p).2 ∧
    (insert_hint_scan_traced s v p).2 <+: (List.range p).reverse ∧
    (∀ i ∈ (insert_hint_scan_traced s v p).2, i < p ∧ ∃ x, s.m_container[i]? = some x) ∧
    (insert_hint_scan_traced s v p).2.length ≤ p ∧
    (insert_hint_scan_traced s v 0).2 = [] ∧
    s.insert_hint 0 v = ((s.insert v).1, (s.insert v).2.1) ∧
    s.emplace_hint 0 v = ((s.emplace v).1, (s.emplace v).2.1) := by
  have hpre := insert_hint_scan_traced_prefix s v p
  refine ⟨insert_hint_scan_traced_fst s v p, ?_, by rw [emplace_hint_scan_traced_eq], hpre,
    fun i hi => ?_, ?_, rfl, rfl, rfl⟩
  · rw [emplace_hint_scan_traced_eq, insert_hint_scan_traced_fst]
    exact (emplace_hint_scan_eq_insert_hint_scan s v p).symm
  · have h1 : i ∈ (List.range p).reverse := hpre.subset hi
    have h2 : i < p := by simpa using h1
    have h3 : i < s.m_container.length := lt_of_lt_of_le h2 hp
    exact ⟨h2, s.m_container[i], List.getElem?_eq_getElem h3⟩
  · have h := hpre.length_le
    simpa using h

theorem hinted_scan_in_bounds_witness :
    (insert_hint_scan_traced (⟨[1, 2, 3, 5, 6]⟩ : sorted_set Nat) 4 3).2 = [2] ∧
    (insert_hint_scan_traced (⟨[1, 2, 3, 5, 6]⟩ : sorted_set Nat) 0 4).2 = [3, 2, 1, 0] ∧
    (insert_hint_scan_traced (⟨[1, 2, 3, 5, 6]⟩ : sorted_set Nat) 0 4).1
      = (⟨[1, 2, 3, 5, 6]⟩ : sorted_set Nat).insert_hint 4 0 ∧
    (insert_hint_scan_traced (⟨[1, 2, 3, 5, 6]⟩ : sorted_set Nat) 0 4).2.length ≤ 4 ∧
    (⟨[]⟩ : sorted_set Nat).insert_hint 0 4 = (⟨[4]⟩, 0) :=
  ⟨by decide, by decide,
    (hinted_scan_in_bounds ⟨[1, 2, 3, 5, 6]⟩ 4 0 (by decide)).1,
    (hinted_scan_in_bounds ⟨[1, 2, 3, 5, 6]⟩ 4 0 (by decide)).2.2.2.2.2.1,
    by decide⟩

end sorted_set

end sel
